import Mathlib

/-!
Verification of the entity extraction / normalization / comparison core of the
multilingual document comparison tool (`final.py`, `MANUAL_entity_extraction.py`).

The Python sources are shallowly embedded: strings are `List Char` (wrapped in
`String` at the interface), Python `re` patterns are translated either into a
small executable backtracking engine (for the `ENTITY_PATTERNS` table used by
`re.findall`) or into bespoke parsers mirroring the individual regexes used by
the normalizers; Python `float` values are modelled exactly as sign/mantissa/
decimal-exponent triples (`PyFloat`), which agrees with CPython on every value
whose shortest decimal form is exact (all values appearing in this development);
Python `dict`s of entity lists are modelled as total functions from the fixed
tag enumeration to lists, where "key absent" is represented by the empty list
(the extractor never stores an empty list under a present key).
-/

namespace DocCmp

/-- Python whitespace test (`\s`, `str.strip`, `float` argument stripping)
restricted to the whitespace code points that can occur in this code base:
ASCII whitespace plus the Unicode spaces that `clean_text` mentions (NBSP,
thin space, narrow no-break space) and the line/paragraph separators. -/
def pyWS (c : Char) : Bool :=
  c == ' ' || c == '\t' || c == '\n' || c == '\r' || c == Char.ofNat 11 ||
  c == Char.ofNat 12 || c == Char.ofNat 0xA0 || c == Char.ofNat 0x2009 ||
  c == Char.ofNat 0x202F || c == Char.ofNat 0x2028 || c == Char.ofNat 0x2029

/-- ASCII decimal digit test. -/
def isDigitC (c : Char) : Bool := 48 ≤ c.toNat && c.toNat ≤ 57

/-- Numeric value of an ASCII digit character. -/
def digitVal (c : Char) : ℕ := c.toNat - 48

/-- ASCII digit character for a value below 10. -/
def digitChar (d : ℕ) : Char := Char.ofNat (48 + d)

/-- ASCII letter test (the sources' `[A-Za-z]` class). -/
def isAsciiAlpha (c : Char) : Bool :=
  (65 ≤ c.toNat && c.toNat ≤ 90) || (97 ≤ c.toNat && c.toNat ≤ 122)

/-- Lowercasing as performed by Python `str.lower` / `re.IGNORECASE`,
covering ASCII and the non-ASCII letters occurring in the sources
(Latvian and German alphabets). -/
def pyLowerChar (c : Char) : Char :=
  if 65 ≤ c.toNat && c.toNat ≤ 90 then Char.ofNat (c.toNat + 32)
  else if c == 'Ā' then 'ā' else if c == 'Č' then 'č' else if c == 'Ē' then 'ē'
  else if c == 'Ģ' then 'ģ' else if c == 'Ī' then 'ī' else if c == 'Ķ' then 'ķ'
  else if c == 'Ļ' then 'ļ' else if c == 'Ņ' then 'ņ' else if c == 'Ō' then 'ō'
  else if c == 'Ŗ' then 'ŗ' else if c == 'Š' then 'š' else if c == 'Ū' then 'ū'
  else if c == 'Ž' then 'ž' else if c == 'Ä' then 'ä' else if c == 'Ö' then 'ö'
  else if c == 'Ü' then 'ü' else c

/-- Uppercasing as performed by Python `str.upper`, on the same alphabet. -/
def pyUpperChar (c : Char) : Char :=
  if 97 ≤ c.toNat && c.toNat ≤ 122 then Char.ofNat (c.toNat - 32)
  else if c == 'ā' then 'Ā' else if c == 'č' then 'Č' else if c == 'ē' then 'Ē'
  else if c == 'ģ' then 'Ģ' else if c == 'ī' then 'Ī' else if c == 'ķ' then 'Ķ'
  else if c == 'ļ' then 'Ļ' else if c == 'ņ' then 'Ņ' else if c == 'ō' then 'Ō'
  else if c == 'ŗ' then 'Ŗ' else if c == 'š' then 'Š' else if c == 'ū' then 'Ū'
  else if c == 'ž' then 'Ž' else if c == 'ä' then 'Ä' else if c == 'ö' then 'Ö'
  else if c == 'ü' then 'Ü' else c

/-- Case-insensitive character comparison (`re.IGNORECASE`). -/
def ciEq (c d : Char) : Bool := pyLowerChar c == pyLowerChar d

/-- Python `str.strip` on a character list. -/
def stripWS (l : List Char) : List Char :=
  ((l.dropWhile fun c => pyWS c).reverse.dropWhile fun c => pyWS c).reverse

/-- Whitespace-run collapsing with a flag recording whether the previous
character belonged to a whitespace run. -/
def collapseWSAux (prevWS : Bool) (l : List Char) : List Char :=
  match l with
  | [] => []
  | c :: rest =>
    if pyWS c then
      if prevWS then collapseWSAux true rest else ' ' :: collapseWSAux true rest
    else c :: collapseWSAux false rest

/-- Whitespace-run collapsing: the effect of `re.sub(r"\s+", " ", text)`. -/
def collapseWS (l : List Char) : List Char := collapseWSAux false l

/-- Embedding of `clean_text` (identical in both source files): map the three
special space code points to an ASCII space, collapse whitespace runs, strip. -/
def cleanL (l : List Char) : List Char :=
  stripWS (collapseWS (l.map fun c =>
    if c == Char.ofNat 0xA0 || c == Char.ofNat 0x202F || c == Char.ofNat 0x2009
    then ' ' else c))

/-- Embedding of `clean_text` at `String` type. -/
def clean_text (s : String) : String := ⟨cleanL s.data⟩

/-- Fuelled scanner of `str.replace`; one fuel unit is spent per position. -/
def strReplaceF (fuel : ℕ) (s pat rep : List Char) : List Char :=
  match fuel with
  | 0 => s
  | fuel + 1 =>
    match s with
    | [] => []
    | c :: rest =>
      if pat ≠ [] ∧ pat.isPrefixOf (c :: rest) then
        rep ++ strReplaceF fuel ((c :: rest).drop pat.length) pat rep
      else c :: strReplaceF fuel rest pat rep

/-- Python `str.replace(pat, rep)`: replace every non-overlapping occurrence,
scanning left to right.  (All call sites use a non-empty `pat`; for an empty
`pat` this embedding returns the string unchanged.) -/
def strReplace (s pat rep : List Char) : List Char := strReplaceF s.length s pat rep

/-! ### Python float model

Python `float(...)` / `str(...)` are modelled exactly: a finite float is a
sign, a mantissa and a decimal exponent (value `±mant * 10^ex`), kept in the
canonical form `mant = 0 → ex = 0` and `mant ≠ 0 → ¬ 10 ∣ mant`.  This agrees
with CPython wherever the shortest round-trip decimal representation is exact,
which covers every numeral in this repository; binary rounding of literals
with more than 17 significant digits and overflow to `inf` are outside the
model. -/

/-- Result of a successful Python `float(...)` call. -/
inductive PyFloat : Type
  | finite (neg : Bool) (mant : ℕ) (ex : ℤ)
  | infinite (neg : Bool)
  | nan
deriving DecidableEq

/-- Fuelled core of `canonMant`. -/
def canonMantF (fuel : ℕ) (m : ℕ) (e : ℤ) : ℕ × ℤ :=
  match fuel with
  | 0 => (m, e)
  | fuel + 1 =>
    if m = 0 then (0, 0)
    else if m % 10 = 0 then canonMantF fuel (m / 10) (e + 1)
    else (m, e)

/-- Strip trailing decimal zeros from a mantissa, moving them into the
exponent; the zero mantissa is forced to exponent 0. -/
def canonMant (m : ℕ) (e : ℤ) : ℕ × ℤ := canonMantF (m + 1) m e

/-- Consume a maximal Python digit group (digits with single underscores
strictly between digits), returning the digit values (most significant first)
and the unconsumed remainder. -/
def takeDigs (l : List Char) : List ℕ × List Char :=
  match l with
  | [] => ([], [])
  | c :: rest =>
    if isDigitC c then
      match rest with
      | r1 :: r2 :: rr =>
        if r1 == '_' && isDigitC r2 then
          let p := takeDigs (r2 :: rr)
          (digitVal c :: p.1, p.2)
        else
          let p := takeDigs (r1 :: r2 :: rr)
          (digitVal c :: p.1, p.2)
      | [r1] =>
        let p := takeDigs [r1]
        (digitVal c :: p.1, p.2)
      | [] => ([digitVal c], [])
    else ([], c :: rest)

/-- Optional leading sign of a Python float literal; `true` means negative. -/
def parseSign (l : List Char) : Bool × List Char :=
  match l with
  | [] => (false, [])
  | c :: r => if c == '+' then (false, r) else if c == '-' then (true, r) else (false, c :: r)

/-- Case-insensitive literal-word matching; returns the remainder on success. -/
def ciPrefix (kw l : List Char) : Option (List Char) :=
  match kw, l with
  | [], l => some l
  | _ :: _, [] => none
  | k :: ks, c :: cs => if ciEq k c then ciPrefix ks cs else none

/-- Value of a digit list, most significant digit first. -/
def natOfMSD (ds : List ℕ) : ℕ := Nat.ofDigits 10 ds.reverse

/-- Fuelled base-10 digit expansion, least significant digit first (a
kernel-reducible equivalent of the library digit function; fuel `n` always
suffices since the digit count of `n` never exceeds `n`). -/
def natDigitsF : ℕ → ℕ → List ℕ
  | 0, _ => []
  | fuel + 1, n => if n = 0 then [] else n % 10 :: natDigitsF fuel (n / 10)

/-- Base-10 digits, least significant first. -/
def natDigits10 (n : ℕ) : List ℕ := natDigitsF n n

/-- Digits of a natural number, most significant first. -/
def msdDigits (n : ℕ) : List ℕ := (natDigits10 n).reverse

/-- Optional fraction part `(?:\.digits?)?` of the float grammar. -/
def pyFrac (l : List Char) : List ℕ × List Char :=
  match l with
  | '.' :: r => takeDigs r
  | _ => ([], l)

/-- Optional exponent part `(?:[eE][+-]?digits)?` of the float grammar. -/
def pyExp (l : List Char) : ℤ × List Char :=
  match l with
  | c :: r =>
    if c == 'e' || c == 'E' then
      let es := parseSign r
      let pe := takeDigs es.2
      if pe.1 = [] then (0, c :: r)
      else ((if es.1 then -(natOfMSD pe.1 : ℤ) else (natOfMSD pe.1 : ℤ)), pe.2)
    else (0, c :: r)
  | [] => (0, [])

/-- Python float grammar after whitespace stripping: optional sign, then
`inf`/`infinity`/`nan` (case-insensitively) or a digit part with optional
decimal point, optional fraction and optional exponent, consuming the whole
string. -/
def pyParseCore (l : List Char) : Option PyFloat :=
  let s := parseSign l
  let neg := s.1
  let l1 := s.2
  if (ciPrefix ['i','n','f','i','n','i','t','y'] l1 == some ([] : List Char)) ||
     (ciPrefix ['i','n','f'] l1 == some ([] : List Char)) then
    some (.infinite neg)
  else if ciPrefix ['n','a','n'] l1 == some ([] : List Char) then
    some .nan
  else
    let pInt := takeDigs l1
    let frac := pyFrac pInt.2
    let expRes := pyExp frac.2
    if (pInt.1 = [] ∧ frac.1 = []) ∨ expRes.2 ≠ [] then none
    else
      let c := canonMant (natOfMSD (pInt.1 ++ frac.1)) (expRes.1 - frac.1.length)
      some (.finite neg c.1 c.2)

/-- Embedding of Python `float(text)`: strip surrounding whitespace, then
parse; `none` models `ValueError`. -/
def pyParseFloat (l : List Char) : Option PyFloat := pyParseCore (stripWS l)

/-- Canonical-form invariant of parsed floats: a zero mantissa carries
exponent zero, a non-zero mantissa has no trailing decimal zero. -/
def PyCanon : PyFloat → Prop
  | .finite _ m e => (m = 0 → e = 0) ∧ (m ≠ 0 → ¬ (10 ∣ m))
  | .infinite _ => True
  | .nan => True

/-- Decimal string of a natural number (used inside the float printer). -/
def natStr (n : ℕ) : List Char :=
  if n = 0 then ['0'] else (msdDigits n).map digitChar

/-- Left-pad a digit list with zeros to the given length. -/
def padDigits (k : ℕ) (ds : List ℕ) : List ℕ := List.replicate (k - ds.length) 0 ++ ds

/-- Exponent digits of Python's scientific notation (at least two digits). -/
def expDigits (a : ℕ) : List ℕ := if a < 10 then 0 :: msdDigits a else msdDigits a

/-- Embedding of Python `str(...)` on a float: `N.0` for integral values,
positional notation while the decimal exponent lies in `[-4, 16)`, scientific
notation `d[.ddd]e±EE` otherwise. -/
def reprFloat : PyFloat → List Char
  | .nan => ['n', 'a', 'n']
  | .infinite neg => (if neg then ['-'] else []) ++ ['i', 'n', 'f']
  | .finite neg m e =>
    (if neg then ['-'] else []) ++
    (if m = 0 then ['0', '.', '0']
     else
       let nd := (msdDigits m).length
       let decExp : ℤ := e + nd - 1
       if -4 ≤ decExp ∧ decExp < 16 then
         if 0 ≤ e then natStr (m * 10 ^ e.toNat) ++ ['.', '0']
         else
           let k := (-e).toNat
           if k < nd then
             (msdDigits (m / 10 ^ k)).map digitChar ++ '.' ::
               (padDigits k (msdDigits (m % 10 ^ k))).map digitChar
           else
             '0' :: '.' :: List.replicate (k - nd) '0' ++ (msdDigits m).map digitChar
       else
         (match msdDigits m with
          | [] => []
          | d0 :: rest =>
            digitChar d0 :: (if rest = [] then [] else '.' :: rest.map digitChar)) ++
         'e' :: (if decExp < 0 then '-' else '+') :: (expDigits decExp.natAbs).map digitChar)

/-- Embedding of `normalize_number` (identical in both source files): remove
spaces, turn commas into periods, then return `str(float(...))` on success and
the transformed text on failure. -/
def normNumL (l : List Char) : List Char :=
  let val := strReplace (strReplace l [' '] []) [','] ['.']
  match pyParseFloat val with
  | some p => reprFloat p
  | none => val

/-- Embedding of `normalize_number` at `String` type. -/
def normalize_number (s : String) : String := ⟨normNumL s.data⟩

/-! ### Date normalization -/

/-- Embedding of the `MONTHS` dictionary (identical in both source files):
lower-case month names of English, German and Latvian mapped to month
numbers; duplicate literal entries carry identical values and are listed
once.  Lookup with default 0 models `MONTHS.get(mon, 0)`. -/
def MONTHS : List (String × ℕ) :=
  [("january", 1), ("february", 2), ("march", 3), ("april", 4), ("may", 5),
   ("june", 6), ("july", 7), ("august", 8), ("september", 9), ("october", 10),
   ("november", 11), ("december", 12),
   ("januar", 1), ("februar", 2), ("märz", 3), ("maerz", 3), ("mai", 5),
   ("juni", 6), ("juli", 7), ("oktober", 10), ("dezember", 12),
   ("janvāris", 1), ("janvārī", 1), ("februāris", 2), ("februārī", 2),
   ("marts", 3), ("martā", 3), ("aprīlis", 4), ("aprīlī", 4), ("maijs", 5),
   ("maijā", 5), ("jūnijs", 6), ("jūnijā", 6), ("jūlijs", 7), ("jūlijā", 7),
   ("augusts", 8), ("augustā", 8), ("septembris", 9), ("septembrī", 9),
   ("oktobris", 10), ("oktobrī", 10), ("novembris", 11), ("novembrī", 11),
   ("decembris", 12), ("decembrī", 12)]

/-- Month-number lookup, `MONTHS.get(name, 0)`. -/
def monthNum (name : List Char) : ℕ :=
  ((MONTHS.find? fun p => p.1.data == name).map Prod.snd).getD 0

/-- Word-constituent test for the regex `\b` boundary (letters of the
alphabets occurring in the sources, digits, underscore). -/
def isWordChar (c : Char) : Bool :=
  isAsciiAlpha c || isDigitC c || c == '_' ||
  ['ā', 'č', 'ē', 'ģ', 'ī', 'ķ', 'ļ', 'ņ', 'ō', 'ŗ', 'š', 'ū', 'ž',
   'ä', 'ö', 'ü'].contains (pyLowerChar c)

/-- Boundary condition of a trailing `\b`: end of input or a non-word
character next. -/
def atBoundary (l : List Char) : Bool :=
  match l with
  | [] => true
  | c :: _ => !isWordChar c

/-- Attempt of the pattern `gad(?:a|ā|am|us|ai)\b` at the current position
(case-insensitive), returning the remainder after the match.  Alternatives
are tried in source order, each followed by the boundary test. -/
def matchGadaAt (l : List Char) : Option (List Char) :=
  match ciPrefix ['g', 'a', 'd'] l with
  | none => none
  | some r =>
    (ciPrefix ['a'] r).bind (fun r2 => if atBoundary r2 then some r2 else none) <|>
    (ciPrefix ['ā'] r).bind (fun r2 => if atBoundary r2 then some r2 else none) <|>
    (ciPrefix ['a', 'm'] r).bind (fun r2 => if atBoundary r2 then some r2 else none) <|>
    (ciPrefix ['u', 's'] r).bind (fun r2 => if atBoundary r2 then some r2 else none) <|>
    (ciPrefix ['a', 'i'] r).bind (fun r2 => if atBoundary r2 then some r2 else none)

/-- Fuelled scanner of the `gada`-word erasing substitution. -/
def gadaSubF (fuel : ℕ) (prevW : Bool) (l : List Char) : List Char :=
  match fuel with
  | 0 => l
  | fuel + 1 =>
    match l with
    | [] => []
    | c :: rest =>
      if !prevW then
        match matchGadaAt (c :: rest) with
        | some r => gadaSubF fuel true r
        | none => c :: gadaSubF fuel (isWordChar c) rest
      else c :: gadaSubF fuel (isWordChar c) rest

/-- Embedding of `re.sub(r"\bgad(?:a|ā|am|us|ai)\b", "", text, flags=re.I)`:
scan left to right, erase each match, track word-character context for `\b`. -/
def gadaSub (prevW : Bool) (l : List Char) : List Char := gadaSubF l.length prevW l

/-- Greedy run of characters satisfying a class, at least one required. -/
def takeClass1 (p : Char → Bool) (l : List Char) : Option (List Char × List Char) :=
  let run := l.takeWhile p
  if run = [] then none else some (run, l.drop run.length)

/-- Exactly `n` ASCII digits. -/
def exactDigits (n : ℕ) (l : List Char) : Option (List Char × List Char) :=
  let run := l.take n
  if run.length = n && run.all isDigitC then some (run, l.drop n) else none

/-- One or two digits followed by a continuation, greedy with backtracking
(the regex `\d{1,2}` in front of further pattern parts). -/
def digits12 {α : Type} (l : List Char) (k : List Char → List Char → Option α) : Option α :=
  match l with
  | c1 :: c2 :: r =>
    if isDigitC c1 then
      (if isDigitC c2 then k [c1, c2] r else none) <|> k [c1] (c2 :: r)
    else none
  | [c1] => if isDigitC c1 then k [c1] [] else none
  | [] => none

/-- Two to four digits, greedy with backtracking (the regex `\d{2,4}`). -/
def digits24 (l : List Char) : Option (List Char × List Char) :=
  let run := (l.takeWhile isDigitC).take 4
  if run.length < 2 then none else some (run, l.drop run.length)

/-- Numeric value of an all-digit character list (Python `int(...)` on the
captured group). -/
def digitsToNat (ds : List Char) : ℕ := Nat.ofDigits 10 (ds.map digitVal).reverse

/-- Two-digit zero-padded print, the `f"{n:02d}"` format. -/
def pad2 (n : ℕ) : List Char := if n < 10 then '0' :: natStr n else natStr n

/-- Whitespace skip, the regex `\s*`. -/
def skipWS (l : List Char) : List Char := l.dropWhile fun c => pyWS c

/-- Letter class of the Latvian date pattern,
`[A-Za-zāčēģīķļņōŗšūž]` (case-sensitive: only lower-case Latvian letters). -/
def latvianLetter (c : Char) : Bool :=
  isAsciiAlpha c ||
  ['ā', 'č', 'ē', 'ģ', 'ī', 'ķ', 'ļ', 'ņ', 'ō', 'ŗ', 'š', 'ū', 'ž'].contains c

/-- Letter class `[A-Za-zäÄöÖüÜ]` of the English/German date patterns. -/
def deLetter (c : Char) : Bool :=
  isAsciiAlpha c || ['ä', 'Ä', 'ö', 'Ö', 'ü', 'Ü'].contains c

/-- Case-sensitive literal-word matching; returns the remainder on success. -/
def litPrefix (kw l : List Char) : Option (List Char) :=
  if kw.isPrefixOf l then some (l.drop kw.length) else none

/-- Anchored attempt of
`(\d{4})\.\s*(?:gada)?\s*(\d{1,2})\.\s*([A-Za-zāčēģīķļņōŗšūž]+)`,
returning the captured year, day and month-name strings. -/
def matchLatvianDate (l : List Char) : Option (List Char × List Char × List Char) := do
  let (y, r1) ← exactDigits 4 l
  let r2 ← match r1 with | '.' :: r => some r | _ => none
  let r3 := skipWS r2
  let r4 := match litPrefix ['g', 'a', 'd', 'a'] r3 with | some r => r | none => r3
  let r5 := skipWS r4
  digits12 r5 fun d r6 => do
    let r7 ← match r6 with | '.' :: r => some r | _ => none
    let r8 := skipWS r7
    let (mon, _) ← takeClass1 latvianLetter r8
    some (y, d, mon)

/-- Suffix strip `re.sub(r"(ā|a|s|āra)$", "", mon)`: the leftmost
end-anchored match wins, so a final `āra` is removed as a block, otherwise a
single final `ā`, `a` or `s`. -/
def stripMonthSuffix (m : List Char) : List Char :=
  let r := m.reverse
  match r with
  | 'a' :: 'r' :: 'ā' :: t => t.reverse
  | 'ā' :: t => t.reverse
  | 'a' :: t => t.reverse
  | 's' :: t => t.reverse
  | _ => m

/-- Anchored attempt of `(\d{1,2})\.?\s*([A-Za-zäÄöÖüÜ]+)\s*(\d{4})` from
`final.py`, returning day, month name and year. -/
def matchEnDeDate (l : List Char) : Option (List Char × List Char × List Char) :=
  digits12 l fun d r1 =>
    let step : List Char → Option (List Char × List Char × List Char) := fun r2 => do
      let r3 := skipWS r2
      let (mon, r4) ← takeClass1 deLetter r3
      let r5 := skipWS r4
      let (y, _) ← exactDigits 4 r5
      some (d, mon, y)
    (match r1 with | '.' :: r => step r | _ => none) <|> step r1

/-- Anchored attempt of `(\d{1,2})\s*([A-Za-zäÄöÖüÜ]+)\s*(\d{4})` from
`MANUAL_entity_extraction.py` (no optional period). -/
def matchEnDeDateManual (l : List Char) : Option (List Char × List Char × List Char) :=
  digits12 l fun d r1 => do
    let r2 := skipWS r1
    let (mon, r3) ← takeClass1 deLetter r2
    let r4 := skipWS r3
    let (y, _) ← exactDigits 4 r4
    some (d, mon, y)

/-- Anchored attempt of the numeric date pattern (one or two day digits, a
separator out of period, hyphen and slash, one or two month digits, another
separator, then two to four year digits), returning day, month and year
digit strings. -/
def matchNumericDate (l : List Char) : Option (List Char × List Char × List Char) :=
  digits12 l fun d r1 => do
    let r2 ← match r1 with
      | c :: r => if c == '.' || c == '-' || c == '/' then some r else none
      | [] => none
    digits12 r2 fun mth r3 => do
      let r4 ← match r3 with
        | c :: r => if c == '.' || c == '-' || c == '/' then some r else none
        | [] => none
      let (y, _) ← digits24 r4
      some (d, mth, y)

/-- ISO output `f"{y}-{month:02d}-{int(d):02d}"` with the year kept as its
captured digit string. -/
def isoOut (y : List Char) (month : ℕ) (d : List Char) : List Char :=
  y ++ '-' :: pad2 month ++ '-' :: pad2 (digitsToNat d)

/-- Embedding of `normalize_date` from `final.py`: clean, erase `gada`-type
words, then try the Latvian, English/German and numeric branches in order;
a branch whose month lookup yields 0 falls through; on total failure the
(cleaned, `gada`-stripped) text is returned. -/
def normDateFinalL (l : List Char) : List Char :=
  let t := stripWS (gadaSub false (cleanL l))
  let lat : Option (List Char) :=
    (matchLatvianDate t).bind fun (y, d, mon) =>
      let m := monthNum (stripMonthSuffix (mon.map pyLowerChar))
      if m ≠ 0 then some (isoOut y m d) else none
  let ende : Option (List Char) :=
    (matchEnDeDate t).bind fun (d, mon, y) =>
      let m := monthNum (mon.map pyLowerChar)
      if m ≠ 0 then some (isoOut y m d) else none
  let num : Option (List Char) :=
    (matchNumericDate t).map fun (d, mth, y) =>
      let yv := digitsToNat y
      let yv2 := if yv < 100 then yv + 2000 else yv
      natStr yv2 ++ '-' :: pad2 (digitsToNat mth) ++ '-' :: pad2 (digitsToNat d)
  ((lat <|> ende) <|> num).getD t

/-- Embedding of `normalize_date` from `final.py` at `String` type. -/
def normalize_date (s : String) : String := ⟨normDateFinalL s.data⟩

/-- Attempt of `(\b\d{1,2})\.\s*([A-Za-zäÄöÖüÜ]+)\s*(\d{4}\b)` at the current
position, returning the `\1 \2 \3` replacement and the remainder (the leading
`\b` is checked by the caller). -/
def matchDayDotMonYear (l : List Char) : Option (List Char × List Char) :=
  digits12 l fun d r1 => do
    let r2 ← match r1 with | '.' :: r => some r | _ => none
    let r3 := skipWS r2
    let (mon, r4) ← takeClass1 deLetter r3
    let r5 := skipWS r4
    let (y, r6) ← exactDigits 4 r5
    if atBoundary r6 then some (d ++ ' ' :: mon ++ ' ' :: y, r6) else none

/-- Fuelled scanner of the day-period preprocessing substitution. -/
def subDayMonF (fuel : ℕ) (prevW : Bool) (l : List Char) : List Char :=
  match fuel with
  | 0 => l
  | fuel + 1 =>
    match l with
    | [] => []
    | c :: rest =>
      if !prevW then
        match matchDayDotMonYear (c :: rest) with
        | some (rep, r) => rep ++ subDayMonF fuel true r
        | none => c :: subDayMonF fuel (isWordChar c) rest
      else c :: subDayMonF fuel (isWordChar c) rest

/-- Embedding of the `re.sub` preprocessing of `MANUAL_entity_extraction.py`
turning `11. September 2013` into `11 September 2013`. -/
def subDayMon (prevW : Bool) (l : List Char) : List Char := subDayMonF l.length prevW l

/-- Embedding of `normalize_date` from `MANUAL_entity_extraction.py`: no
`gada` erasure; the English/German branch runs on the preprocessed text. -/
def normDateManualL (l : List Char) : List Char :=
  let t := cleanL l
  let tp := subDayMon false t
  let lat : Option (List Char) :=
    (matchLatvianDate t).bind fun (y, d, mon) =>
      let m := monthNum (stripMonthSuffix (mon.map pyLowerChar))
      if m ≠ 0 then some (isoOut y m d) else none
  let ende : Option (List Char) :=
    (matchEnDeDateManual tp).bind fun (d, mon, y) =>
      let m := monthNum (mon.map pyLowerChar)
      if m ≠ 0 then some (isoOut y m d) else none
  let num : Option (List Char) :=
    (matchNumericDate t).map fun (d, mth, y) =>
      let yv := digitsToNat y
      let yv2 := if yv < 100 then yv + 2000 else yv
      natStr yv2 ++ '-' :: pad2 (digitsToNat mth) ++ '-' :: pad2 (digitsToNat d)
  ((lat <|> ende) <|> num).getD t

/-- Embedding of the `MANUAL` `normalize_date` at `String` type. -/
def manual_normalize_date (s : String) : String := ⟨normDateManualL s.data⟩

/-! ### Legal-reference, amount and article normalization -/

/-- Entity tags of the `ENTITY_PATTERNS` table, in source order. -/
inductive Tag : Type
  | date | number | eur_amount | percent | legal_ref | article | range
deriving DecidableEq, Repr

/-- Tag list in the insertion order of the Python pattern dictionary. -/
def tagList : List Tag :=
  [.date, .number, .eur_amount, .percent, .legal_ref, .article, .range]

/-- Embedding of `ENTITY_EQUIVALENCE` as the exact-key lookup
`ENTITY_EQUIVALENCE.get(c, c)`. -/
def equivGet (c : List Char) : List Char :=
  if c = ['E', 'S'] then ['E', 'U']
  else if c = ['E', 'K'] then ['E', 'C']
  else if c = ['E', 'U', 'R', 'A', 'T', 'O'] then ['E', 'U', 'R', 'A', 'T', 'O', 'M']
  else c

/-- Fallback substitution pass of the legal-reference normalizer: blind
`str.replace` of each equivalence pair over the whole string, in the
dictionary order ES, EK, EURATO. -/
def equivBlindSub (s : List Char) : List Char :=
  strReplace (strReplace (strReplace s ['E', 'S'] ['E', 'U']) ['E', 'K'] ['E', 'C'])
    ['E', 'U', 'R', 'A', 'T', 'O'] ['E', 'U', 'R', 'A', 'T', 'O', 'M']

/-- ASCII letter run under `re.IGNORECASE` (the pattern text says `[A-Z]+`).
Returns the run and the remainder; fails on an empty run. -/
def letterRun (l : List Char) : Option (List Char × List Char) := takeClass1 isAsciiAlpha l

/-- Code-list parser `[A-Z]+(?:\s*,\s*[A-Z]+)*`, returning the letter runs in
order (re-splitting the captured group on commas reproduces exactly these
runs) and the remainder. -/
def codesLoopF (fuel : ℕ) (acc : List (List Char)) (r : List Char) :
    List (List Char) × List Char :=
  match fuel with
  | 0 => (acc, r)
  | fuel + 1 =>
    match skipWS r with
    | ',' :: r2 =>
      match letterRun (skipWS r2) with
      | some (c, r3) => codesLoopF fuel (acc ++ [c]) r3
      | none => (acc, r)
    | _ => (acc, r)

/-- Code-list parser continuation: see `codesParse`. -/
def codesParse (l : List Char) : Option (List (List Char) × List Char) := do
  let (c1, r1) ← letterRun l
  some (codesLoopF r1.length [c1] r1)

/-- Parenthesised code group `\(codes\)`. -/
def parenCodes (l : List Char) : Option (List (List Char) × List Char) :=
  match l with
  | '(' :: r0 =>
    match codesParse r0 with
    | some (cs, ')' :: r2) => some (cs, r2)
    | _ => none
  | _ => none

/-- Keyword alternation of the legal-reference patterns, in source order,
case-insensitive, with the continuation applied to each alternative
(backtracking across alternatives). -/
def kwAlt {α : Type} (kws : List (List Char)) (l : List Char)
    (k : List Char → Option α) : Option α :=
  match kws with
  | [] => none
  | kw :: rest => ((ciPrefix kw l).bind k) <|> kwAlt rest l k

/-- Keywords of the `final.py` canonicalization pattern. -/
def finalKws : List (List Char) :=
  [String.data "Regulation", String.data "Regula", String.data "Regulas",
   String.data "Verordnung", String.data "Directive", String.data "Direktīva",
   String.data "Decision", String.data "Lēmums"]

/-- Keywords of the `MANUAL` canonicalization pattern, which adds `Council`
in front of the `final.py` alternatives. -/
def manualRecanonKws : List (List Char) := String.data "Council" :: finalKws

/-- Optional number token `(?:No\.|Nr\.|N\.)?`, case-insensitive. -/
def skipNoTok (l : List Char) : List Char :=
  match ciPrefix (String.data "No.") l with
  | some r => r
  | none =>
    match ciPrefix (String.data "Nr.") l with
    | some r => r
    | none =>
      match ciPrefix (String.data "N.") l with
      | some r => r
      | none => l

/-- Greedy digit run of `\d+`. -/
def digitRun (l : List Char) : Option (List Char × List Char) := takeClass1 isDigitC l

/-- Tail `(?P<year>\d{4})\s*/\s*(?P<num>\d+)` of the `final.py`
canonicalization pattern. -/
def yearNumTail (l : List Char) : Option (List Char × List Char) :=
  match exactDigits 4 l with
  | some (y, r1) =>
    match skipWS r1 with
    | '/' :: r2 =>
      match digitRun (skipWS r2) with
      | some (n, _) => some (y, n)
      | none => none
    | _ => none
  | none => none

/-- Tail `(?P<num>\d+)\s*/\s*(?P<year>\d{4})` of the `MANUAL`
canonicalization pattern, returning `(year, num)`. -/
def numYearTail (l : List Char) : Option (List Char × List Char) :=
  match digitRun l with
  | some (n, r1) =>
    match skipWS r1 with
    | '/' :: r2 =>
      match exactDigits 4 (skipWS r2) with
      | some (y, _) => some (y, n)
      | none => none
    | _ => none
  | none => none

/-- Groups produced by a successful canonicalization-pattern match. -/
structure RecanonGroups : Type where
  codes : Option (List (List Char))
  codes2 : Option (List (List Char))
  year : List Char
  num : List Char
deriving Repr

/-- Attempt of the whole canonicalization pattern at one position: greedy
optional leading code group, greedy optional keyword group, then the numeric
tail (`tail` is `yearNumTail` for `final.py`, `numYearTail` for `MANUAL`). -/
def recanonAt (kws : List (List Char))
    (tail : List Char → Option (List Char × List Char)) (l : List Char) :
    Option RecanonGroups :=
  let grp2 : Option (List (List Char)) → List Char → Option RecanonGroups := fun g1 r =>
    (kwAlt kws r fun r1 => do
      let (cs2, r2) ← parenCodes (skipWS r1)
      let r3 := skipWS (skipNoTok (skipWS r2))
      let (y, n) ← tail r3
      some ⟨g1, some cs2, y, n⟩) <|>
    (tail r).map fun (y, n) => ⟨g1, none, y, n⟩
  ((parenCodes l).bind fun (cs, r) => grp2 (some cs) (skipWS r)) <|> grp2 none l

/-- Leftmost search of the canonicalization pattern (`re.search`). -/
def recanonSearch (kws : List (List Char))
    (tail : List Char → Option (List Char × List Char)) :
    List Char → Option RecanonGroups
  | [] => recanonAt kws tail []
  | c :: rest => recanonAt kws tail (c :: rest) <|> recanonSearch kws tail rest

/-- Priority order `{"EC": 0, "EU": 1, "EURATOM": 2}` with default 99. -/
def codeOrder (c : List Char) : ℕ :=
  if c = ['E', 'C'] then 0 else if c = ['E', 'U'] then 1
  else if c = ['E', 'U', 'R', 'A', 'T', 'O', 'M'] then 2 else 99

/-- Embedding of `sorted(set(code_list), key=...)`: duplicates removed (first
occurrences kept), then a stable sort by the priority key.  Python's set
iteration order is unspecified, but all codes reached in this development have
pairwise distinct keys, for which every iteration order sorts identically. -/
def dedupSortCodes (cs : List (List Char)) : List (List Char) :=
  (cs.dedup).insertionSort fun a b => codeOrder a ≤ codeOrder b

/-- Comma-space join of the canonical code list. -/
def joinCodes (cs : List (List Char)) : List Char :=
  match cs with
  | [] => []
  | c :: rest => c ++ (rest.map fun d => ',' :: ' ' :: d).flatten

/-- Embedding of the `legal_ref` branch of `normalize_entity` in `final.py`. -/
def normLegalFinalL (val : List Char) : List Char :=
  let s := (cleanL val).map pyUpperChar
  match recanonSearch finalKws yearNumTail s with
  | none => equivBlindSub s
  | some g =>
    let runs := (g.codes.getD (g.codes2.getD []))
    let codeList := runs.map fun c => (equivGet (stripWS c)).map pyUpperChar
    let codeList2 := if codeList = [] then [['E', 'U']] else codeList
    '(' :: joinCodes (dedupSortCodes codeList2) ++ ')' :: g.year ++ '/' :: g.num

/-- Keywords stripped by the `MANUAL` copy before canonicalization
(including `Council`). -/
def manualStripKws : List (List Char) :=
  [String.data "COUNCIL", String.data "REGULATION", String.data "REGULA",
   String.data "REGULAS", String.data "VERORDNUNG", String.data "DIRECTIVE",
   String.data "DIREKTĪVA", String.data "DECISION", String.data "LĒMUMS"]

/-- Attempt of `\b(?:COUNCIL|...)\s*` at one position: first keyword that
matches case-insensitively, then greedy whitespace (no trailing boundary).
Returns the remainder together with the word-character status of the last
consumed character (for the `\b` test at later positions). -/
def matchStripKwAt (l : List Char) : Option (Bool × List Char) :=
  match manualStripKws.findSome? fun kw => ciPrefix kw l with
  | some r =>
    let r2 := skipWS r
    some (r2.length = r.length, r2)
  | none => none

/-- Fuelled scanner of the keyword-stripping substitution. -/
def stripKwSubF (fuel : ℕ) (prevW : Bool) (l : List Char) : List Char :=
  match fuel with
  | 0 => l
  | fuel + 1 =>
    match l with
    | [] => []
    | c :: rest =>
      if !prevW then
        match matchStripKwAt (c :: rest) with
        | some (w, r) => stripKwSubF fuel w r
        | none => c :: stripKwSubF fuel (isWordChar c) rest
      else c :: stripKwSubF fuel (isWordChar c) rest

/-- Scanner of the keyword-stripping substitution in the `MANUAL` copy. -/
def stripKwSub (prevW : Bool) (l : List Char) : List Char := stripKwSubF l.length prevW l

/-- Attempt of one match of the number-token-stripping substitution
`\s*(?:NO\.|NR\.|N\.)\s*` at one position. -/
def matchStripNoAt (l : List Char) : Option (List Char) :=
  let r := skipWS l
  let r2 := skipNoTok r
  if r2.length < r.length then some (skipWS r2) else none

/-- Fuelled scanner of the number-token-stripping substitution. -/
def stripNoSubF (fuel : ℕ) (l : List Char) : List Char :=
  match fuel with
  | 0 => l
  | fuel + 1 =>
    match l with
    | [] => []
    | c :: rest =>
      match matchStripNoAt (c :: rest) with
      | some r => stripNoSubF fuel r
      | none => c :: stripNoSubF fuel rest

/-- Scanner of the number-token-stripping substitution in the `MANUAL` copy. -/
def stripNoSub (l : List Char) : List Char := stripNoSubF l.length l

/-- Embedding of the `legal_ref` branch of `normalize_entity` in the
`MANUAL` copy: proactive keyword and number-token stripping, re-cleaning,
then the NUMBER/YEAR canonicalization pattern; only the leading code group is
consulted. -/
def normLegalManualL (val : List Char) : List Char :=
  let s0 := (cleanL val).map pyUpperChar
  let s1 := cleanL (stripNoSub (stripKwSub false s0))
  match recanonSearch manualRecanonKws numYearTail s1 with
  | none => equivBlindSub s1
  | some g =>
    let runs := g.codes.getD []
    let codeList := runs.map fun c => (equivGet (stripWS c)).map pyUpperChar
    let codeList2 := if codeList = [] then [['E', 'U']] else codeList
    '(' :: joinCodes (dedupSortCodes codeList2) ++ ')' :: g.year ++ '/' :: g.num

/-- Attempt of one match of the amount reordering substitution
`(\d+(?:[.,]\d+)?)EUR` at one position, returning the `EUR\1` replacement and
the remainder. -/
def matchNumEurAt (l : List Char) : Option (List Char × List Char) := do
  let (ds, r1) ← digitRun l
  let withFrac : Option (List Char × List Char) := do
    let r2 ← match r1 with
      | c :: r => if c == '.' || c == ',' then some (c, r) else none
      | [] => none
    let (fs, r3) ← digitRun r2.2
    let r4 ← litPrefix (String.data "EUR") r3
    some (String.data "EUR" ++ ds ++ r2.1 :: fs, r4)
  withFrac <|> (litPrefix (String.data "EUR") r1).map fun r2 =>
    (String.data "EUR" ++ ds, r2)

/-- Fuelled scanner of the amount reordering substitution. -/
def numEurSubF (fuel : ℕ) (l : List Char) : List Char :=
  match fuel with
  | 0 => l
  | fuel + 1 =>
    match l with
    | [] => []
    | c :: rest =>
      match matchNumEurAt (c :: rest) with
      | some (rep, r) => rep ++ numEurSubF fuel r
      | none => c :: numEurSubF fuel rest

/-- Scanner of the amount reordering substitution. -/
def numEurSub (l : List Char) : List Char := numEurSubF l.length l

/-- Embedding of the `eur_amount` branch of `normalize_entity` in
`final.py`: uppercase, drop spaces, move a trailing `EUR` marker before the
digits, translate Latvian scale words, commas to periods. -/
def normEurFinalL (val : List Char) : List Char :=
  let s := strReplace (val.map pyUpperChar) [' '] []
  let s1 := numEurSub s
  let s2 := strReplace s1 (String.data "MILJARDI") (String.data "BILLION")
  let s3 := strReplace s2 (String.data "MILJONI") (String.data "MILLION")
  strReplace s3 [','] ['.']

/-- Keyword alternation of the article substitution, in source order. -/
def artKwAt (l : List Char) : Option (List Char) :=
  (ciPrefix (String.data "Article") l) <|>
  (ciPrefix (String.data "Artikel") l) <|>
  ((ciPrefix (String.data "Art") l).map fun r =>
    match r with
    | '.' :: r2 => r2
    | _ => r) <|>
  ((ciPrefix (String.data "pant") l).map fun r =>
    match r with
    | c :: r2 => if ciEq c 's' then r2 else c :: r2
    | [] => []) <|>
  (ciPrefix (String.data "panta") l) <|>
  (ciPrefix (String.data "pantā") l) <|>
  (ciPrefix (String.data "pantu") l)

/-- Fuelled scanner of the article keyword substitution. -/
def artKwSubF (fuel : ℕ) (l : List Char) : List Char :=
  match fuel with
  | 0 => l
  | fuel + 1 =>
    match l with
    | [] => []
    | c :: rest =>
      match artKwAt (c :: rest) with
      | some r => String.data "Art" ++ artKwSubF fuel r
      | none => c :: artKwSubF fuel rest

/-- Scanner of `re.sub(r"(Article|Artikel|Art\.?|pants?|panta|pantā|pantu)",
"Art", val, flags=re.I)` (no word boundaries in the source pattern). -/
def artKwSub (l : List Char) : List Char := artKwSubF l.length l

/-- Optional parenthesised digit group `(?:\(\d+\))?` of the article number
pattern: the matched text, or empty when the group is absent. -/
def artParen (r2 : List Char) : List Char :=
  match r2 with
  | '(' :: r3 =>
    match digitRun r3 with
    | some (ps, ')' :: _) => '(' :: ps ++ [')']
    | _ => []
  | _ => []

/-- Attempt of the article number pattern `\d+[A-Za-z]?(?:\(\d+\))?` at one
position, returning the matched text. -/
def artNumAt (l : List Char) : Option (List Char) :=
  match digitRun l with
  | none => none
  | some (ds, r1) =>
    let lp_r2 : List Char × List Char :=
      match r1 with
      | c :: r => if isAsciiAlpha c then ([c], r) else ([], c :: r)
      | [] => ([], [])
    some (ds ++ lp_r2.1 ++ artParen lp_r2.2)

/-- Leftmost search of the article number pattern (`re.search`). -/
def artNumSearch : List Char → Option (List Char)
  | [] => artNumAt []
  | c :: rest => artNumAt (c :: rest) <|> artNumSearch rest

/-- Shape of every article-number match: a digit group, an optional single
letter, and an optional parenthesised digit group. -/
def ArtShape (m : List Char) : Prop :=
  ∃ ds lp pp, m = ds ++ lp ++ pp ∧ ds ≠ [] ∧ (∀ c ∈ ds, isDigitC c = true) ∧
    (lp = [] ∨ ∃ c, lp = [c] ∧ isAsciiAlpha c = true) ∧
    (pp = [] ∨ ∃ ps, ps ≠ [] ∧ (∀ c ∈ ps, isDigitC c = true) ∧
      pp = '(' :: ps ++ [')'])

/-- Embedding of the `article` branch of `normalize_entity`. -/
def normArticleL (val : List Char) : List Char :=
  let norm := artKwSub val
  match artNumSearch norm with
  | some m => String.data "Art " ++ m
  | none => String.data "Art"

/-- Embedding of `normalize_entity` from `final.py`: strip, then dispatch on
the tag; tags without a special branch fall through to `val.strip()`. -/
def normEntL (tag : Tag) (v : List Char) : List Char :=
  let val := stripWS v
  match tag with
  | .date => normDateFinalL val
  | .percent => normNumL val
  | .number => normNumL val
  | .eur_amount => normEurFinalL val
  | .legal_ref => normLegalFinalL val
  | .article => normArticleL val
  | .range => stripWS val

/-- Embedding of `normalize_entity` from `final.py` at `String` type. -/
def normalize_entity (tag : Tag) (v : String) : String := ⟨normEntL tag v.data⟩

/-- Embedding of the `MANUAL` `normalize_entity` restricted to the
`legal_ref` tag, at `String` type. -/
def manual_normalize_legal (v : String) : String := ⟨normLegalManualL (stripWS v.data)⟩

/-! ### Regex engine for the pattern catalog

Backtracking matcher with Python `re` semantics for the constructs the
`ENTITY_PATTERNS` table uses: ordered alternation, greedy quantifiers,
character classes, word boundaries and single-character negative look-around.
The matcher is fuelled for termination; the fuel supplied by `reFindall`
exceeds the recursion depth of every evaluation in this development. -/

/-- Regex abstract syntax. -/
inductive RE : Type
  | eps
  | cls (p : Char → Bool)
  | cat (a b : RE)
  | alt (a b : RE)
  | opt (a : RE)
  | star (a : RE)
  | lookNeg (ahead : Bool) (p : Char → Bool)
  | wordB

/-- Structural size of a regex, used only to compute fuel. -/
def reSize : RE → ℕ
  | .eps => 1
  | .cls _ => 1
  | .cat a b => reSize a + reSize b + 1
  | .alt a b => reSize a + reSize b + 1
  | .opt a => reSize a + 1
  | .star a => reSize a + 1
  | .lookNeg _ _ => 1
  | .wordB => 1

/-- Backtracking matcher in continuation style.  `prev` is the character just
before the current position (for `\b` and look-behind); the continuation
receives the updated context and remainder; the first success in backtracking
order is returned, as in Python `re`.  A starred body must consume input for
the iteration to continue (every starred body in the catalog consumes at
least one character). -/
def reM (fuel : ℕ) (r : RE) (prev : Option Char) (s : List Char)
    (k : Option Char → List Char → Option (List Char)) : Option (List Char) :=
  match fuel with
  | 0 => none
  | fuel + 1 =>
    match r with
    | .eps => k prev s
    | .cls p =>
      match s with
      | [] => none
      | c :: rest => if p c then k (some c) rest else none
    | .cat a b => reM fuel a prev s fun p' s' => reM fuel b p' s' k
    | .alt a b => (reM fuel a prev s k) <|> (reM fuel b prev s k)
    | .opt a => (reM fuel a prev s k) <|> k prev s
    | .star a =>
      (reM fuel a prev s fun p' s' =>
        if s'.length < s.length then reM fuel (.star a) p' s' k else none) <|> k prev s
    | .lookNeg ahead p =>
      let chk :=
        if ahead then (match s with | c :: _ => p c | [] => false)
        else (match prev with | some c => p c | none => false)
      if chk then none else k prev s
    | .wordB =>
      let pw := match prev with | some c => isWordChar c | none => false
      let nw := match s with | c :: _ => isWordChar c | [] => false
      if pw != nw then k prev s else none

/-- Fuel that dominates the matcher recursion depth on this input. -/
def reFuel (r : RE) (s : List Char) : ℕ := (reSize r + 2) * (s.length + 2) + 16

/-- Attempt a match at the current position, returning the remainder. -/
def reTry (r : RE) (prev : Option Char) (s : List Char) : Option (List Char) :=
  reM (reFuel r s) r prev s fun _ s' => some s'

/-- Fuelled scan of `re.findall`: try at each position, on success emit the
matched text and continue after it (a zero-width match advances one
character). -/
def reFindallFromF (fuel : ℕ) (r : RE) (prev : Option Char) (s : List Char) :
    List (List Char) :=
  match fuel with
  | 0 => []
  | fuel + 1 =>
    match s with
    | [] => (match reTry r prev [] with | some _ => [[]] | none => [])
    | c :: rest =>
      match reTry r prev (c :: rest) with
      | some s' =>
        let n := (c :: rest).length - s'.length
        if 0 < n then
          let matched := (c :: rest).take n
          matched :: reFindallFromF fuel r (matched.getLast? <|> prev) s'
        else [] :: reFindallFromF fuel r (some c) rest
      | none => reFindallFromF fuel r (some c) rest

/-- Scan of `re.findall` (fuel one beyond the input length always suffices:
every step either consumes a character or advances one position). -/
def reFindallFrom (r : RE) (prev : Option Char) (s : List Char) : List (List Char) :=
  reFindallFromF (s.length + 1) r prev s

/-- Embedding of `re.findall(pat, text, re.I)` (patterns are built
case-insensitively below). -/
def reFindall (r : RE) (s : List Char) : List (List Char) := reFindallFrom r none s

/-- Case-insensitive literal. -/
def strCI (w : String) : RE :=
  (w.data.map fun ch => RE.cls fun c => ciEq c ch).foldr .cat .eps

/-- Character out of an explicit set. -/
def chOf (cs : List Char) : RE := .cls fun c => cs.contains c

/-- Ordered alternation of a head and further alternatives. -/
def altL (r : RE) (rs : List RE) : RE :=
  match rs with
  | [] => r
  | a :: rest => .alt r (altL a rest)

/-- Exact repetition. -/
def repN (n : ℕ) (r : RE) : RE := (List.replicate n r).foldr .cat .eps

/-- Greedy optional chain (the tail of a `{m,n}` counted repetition). -/
def optChain (k : ℕ) (r : RE) : RE :=
  match k with
  | 0 => .eps
  | k + 1 => .opt (.cat r (optChain k r))

/-- Counted repetition `{m,n}`, greedy. -/
def repRange (m n : ℕ) (r : RE) : RE := .cat (repN m r) (optChain (n - m) r)

/-- Digit class `\d`. -/
def dig : RE := .cls isDigitC

/-- Whitespace class `\s`. -/
def wsRE : RE := .cls fun c => pyWS c

/-- Whitespace star `\s*`. -/
def wsStar : RE := .star wsRE

/-- One-or-more repetition, greedy. -/
def plusRE (r : RE) : RE := .cat r (.star r)

/-- Concatenation of a pattern sequence. -/
def catL (rs : List RE) : RE := rs.foldr .cat .eps

/-- Latvian month alternation of the `date` pattern, in source order. -/
def latMonthRE : RE := altL
  (.cat (strCI "janv") (.opt (altL (strCI "āris") [strCI "ārī", strCI "āra"])))
  [.cat (strCI "febr") (.opt (altL (strCI "uāris") [strCI "ruārī", strCI "ruāra"])),
   .cat (strCI "mart") (.opt (strCI "s")), strCI "martā",
   .cat (strCI "aprīli") (.opt (strCI "s")), strCI "aprīlī",
   .cat (strCI "maij") (.opt (strCI "s")), strCI "maijā",
   .cat (strCI "jūnij") (.opt (strCI "s")), strCI "jūnijā",
   .cat (strCI "jūlij") (.opt (strCI "s")), strCI "jūlijā",
   .cat (strCI "august") (.opt (strCI "s")), strCI "augustā",
   .cat (strCI "septembri") (.opt (strCI "s")), strCI "septembrī",
   .cat (strCI "oktobri") (.opt (strCI "s")), strCI "oktobrī",
   .cat (strCI "novembri") (.opt (strCI "s")), strCI "novembrī",
   .cat (strCI "decembri") (.opt (strCI "s")), strCI "decembrī"]

/-- English/German month alternation of the `date` pattern, in source order. -/
def endeMonthRE : RE := altL
  (.cat (strCI "Jan") (.opt (altL (strCI "uar") [strCI "uary"])))
  [.cat (strCI "Feb") (.opt (altL (strCI "ruar") [strCI "ruary"])),
   strCI "März", strCI "Maerz", .cat (strCI "Mar") (.opt (strCI "ch")),
   .cat (strCI "Apr") (.opt (strCI "il")),
   strCI "Mai", strCI "May",
   .cat (strCI "Jun") (.opt (.cls fun c => ciEq c 'i' || ciEq c 'y')),
   .cat (strCI "Jul") (.opt (.cls fun c => ciEq c 'i' || ciEq c 'y')),
   .cat (strCI "Aug") (.opt (strCI "ust")),
   .cat (strCI "Sep") (.opt (.cat (strCI "t") (.opt (strCI "ember")))),
   .cat (strCI "Okt") (.opt (strCI "ober")), .cat (strCI "Oct") (.opt (strCI "ober")),
   .cat (strCI "Nov") (.opt (strCI "ember")),
   .cat (strCI "Dez") (.opt (strCI "ember")), .cat (strCI "Dec") (.opt (strCI "ember"))]

/-- The `date` pattern: Latvian, then English/German, then numeric branch. -/
def dateRE : RE := altL
  (catL [.wordB, repN 4 dig, strCI ".", wsStar, .opt (strCI "gada"), wsStar,
         repRange 1 2 dig, strCI ".", wsStar, latMonthRE, .wordB])
  [catL [.wordB, repRange 1 2 dig, .opt (chOf ['.', '-', '/']), wsStar, endeMonthRE,
         wsStar, repRange 2 4 dig, .wordB],
   catL [.wordB, repRange 1 2 dig, chOf ['.', '-', '/'], repRange 1 2 dig,
         chOf ['.', '-', '/'], repRange 2 4 dig, .wordB]]

/-- Thousands-group chunk `(?:[.,\s]\d{3})*` of the numeric patterns
(the `final.py` variant, whose class includes whitespace). -/
def thousandsRE : RE :=
  .star (catL [.cls fun c => c == '.' || c == ',' || pyWS c, repN 3 dig])

/-- Decimal-part chunk `(?:[.,]\d+)?`. -/
def decPartRE : RE := .opt (.cat (chOf ['.', ',']) (plusRE dig))

/-- The `number` pattern with its negative look-around. -/
def numberRE : RE := catL
  [.lookNeg false isAsciiAlpha, repRange 1 6 dig, thousandsRE, decPartRE,
   .lookNeg true isAsciiAlpha]

/-- The `eur_amount` pattern: prefixed or suffixed currency marker. -/
def eurRE : RE := .alt
  (catL [altL (strCI "EUR") [strCI "€"], .opt wsRE, repRange 1 6 dig, thousandsRE,
         decPartRE])
  (catL [repRange 1 6 dig, thousandsRE, decPartRE, .opt wsRE,
         altL (strCI "EUR") [strCI "€", strCI "miljardi", strCI "miljoni",
           strCI "Million", strCI "Milliarde", strCI "Mio", strCI "Mrd"]])

/-- The `percent` pattern. -/
def percentRE : RE :=
  catL [.wordB, repRange 1 3 dig, decPartRE, .opt wsRE, strCI "%"]

/-- Institutional code alternation, in source order. -/
def codeRE : RE := altL (strCI "EU") [strCI "ES", strCI "EURATOM", strCI "EK", strCI "EC"]

/-- Code list `(?:CODE)(?:\s*,\s*CODE)*`. -/
def codesListRE : RE := .cat codeRE (.star (catL [wsStar, strCI ",", wsStar, codeRE]))

/-- Keyword alternation of the `legal_ref` pattern of `final.py`. -/
def legalKwRE : RE := altL (strCI "Regulation")
  [strCI "Regula", strCI "Regulas", strCI "Verordnung", strCI "Directive",
   strCI "Direktīva", strCI "Decision", strCI "Lēmums"]

/-- The `legal_ref` pattern of `final.py`: parenthesised code form, then
keyword form, both with YEAR/NUMBER tails. -/
def legalRE : RE := .alt
  (catL [strCI "(", codesListRE, strCI ")", wsStar, repN 4 dig, wsStar, strCI "/",
         wsStar, plusRE dig])
  (catL [legalKwRE, wsStar, strCI "(", codesListRE, strCI ")",
         .opt (catL [wsStar, altL (strCI "No.") [strCI "Nr.", strCI "N."], wsStar]),
         repN 4 dig, wsStar, strCI "/", wsStar, plusRE dig])

/-- The `article` pattern (keyword order of the pattern table, which differs
from the keyword order inside `normalize_entity`). -/
def articleRE : RE := catL
  [altL (strCI "Article")
     [.cat (strCI "Art") (.opt (strCI ".")), strCI "Artikel",
      .cat (strCI "pant") (.opt (strCI "s")), strCI "panta", strCI "pantā",
      strCI "pantu"],
   wsStar, plusRE dig, .opt (.cls isAsciiAlpha),
   .opt (catL [strCI "(", plusRE dig, strCI ")"])]

/-- The `range` pattern (four digits, dash variant, four digits). -/
def rangeRE : RE :=
  catL [.wordB, repN 4 dig, .opt wsRE, chOf ['–', '-', '—'], .opt wsRE, repN 4 dig,
        .wordB]

/-- The pattern catalog `ENTITY_PATTERNS` of `final.py`. -/
def patternOf : Tag → RE
  | .date => dateRE
  | .number => numberRE
  | .eur_amount => eurRE
  | .percent => percentRE
  | .legal_ref => legalRE
  | .article => articleRE
  | .range => rangeRE

/-- Entity mapping of one paragraph: canonical values per tag, in scan order;
the empty list models a key absent from the Python dictionary (the extractor
never stores an empty value list). -/
def EntityMap : Type := Tag → List String

/-- Embedding of `extract_entities` from `final.py`: clean the text, find all
matches of every pattern, normalize each match. -/
def extract_entities (s : String) : EntityMap := fun tag =>
  (reFindall (patternOf tag) (cleanL s.data)).map fun m => (⟨normEntL tag m⟩ : String)

/-! ### Similarity, mismatch decision and report -/

/-- Rounding to three decimals, Python `round(x, 3)`.  On every value this
code can produce (fractions `k/n` with `n ≤ 7`, none of which is a half-way
case) CPython's float rounding agrees with exact rational half-up rounding. -/
def round3 (q : ℚ) : ℚ := (⌊q * 1000 + 1 / 2⌋ : ℚ) / 1000

/-- Dictionary emptiness of an entity mapping (Python `not ents`). -/
def emapEmpty (a : EntityMap) : Bool := tagList.all fun t => (a t).isEmpty

/-- Loop body of `entity_similarity`: skip a tag empty on both sides,
otherwise count it and count a set intersection as a match. -/
def simStep (a b : EntityMap) (acc : ℕ × ℕ) (tag : Tag) : ℕ × ℕ :=
  let av := a tag
  let bv := b tag
  if av.isEmpty && bv.isEmpty then acc
  else (acc.1 + 1, if av.any (fun x => bv.contains x) then acc.2 + 1 else acc.2)

/-- Embedding of `entity_similarity` from `final.py`: early returns for empty
mappings, then one counting pass over the tags. -/
def entity_similarity (a b : EntityMap) : ℚ :=
  if emapEmpty a && emapEmpty b then 1
  else if emapEmpty a || emapEmpty b then 0
  else
    let step := tagList.foldl (simStep a b) (0, 0)
    if step.1 = 0 then 0 else round3 ((step.2 : ℚ) / (step.1 : ℚ))

/-- Embedding of `is_significant_mismatch` from the `MANUAL` copy. -/
def is_significant_mismatch (en de : List String) : Bool :=
  if en.isEmpty && de.isEmpty then false
  else if en.any fun x => de.contains x then false
  else true

/-- Mismatch record of the `MANUAL` consistency check (paragraph number kept
by the caller). -/
structure Mismatch : Type where
  tag : Tag
  en : List String
  de : List String
deriving DecidableEq, Repr

/-- Embedding of the per-paragraph body of the `MANUAL` consistency loop:
for every tag present on either side whose value lists mismatch
significantly, record the tag with both value lists. -/
def mismatchesFor (enE deE : EntityMap) : List Mismatch :=
  (tagList.filter fun t =>
    (!(enE t).isEmpty || !(deE t).isEmpty) && is_significant_mismatch (enE t) (deE t)).map
    fun t => ⟨t, enE t, deE t⟩

/-- One-sided difference `set(a) - set(b)` as the deduplicated list of values
of `a` absent from `b`. -/
def setDiff (a b : List String) : List String :=
  (a.filter fun x => !(b.contains x)).dedup

/-- Document model: the paragraph-number/text mapping produced by the
(out-of-scope) loader; `txt` is consulted only on members of `nums`. -/
structure Doc : Type where
  nums : List ℕ
  txt : ℕ → String

/-- Lookup `doc_map.get(n, "")`. -/
def getD (d : Doc) (n : ℕ) : String := if d.nums.contains n then d.txt n else ""

/-- Comparison row of `generate_report` (the constant `ai_comment` field is
carried verbatim). -/
structure Row : Type where
  para_number : ℕ
  en : String
  de : String
  ents_en : EntityMap
  ents_de : EntityMap
  ents_lv : EntityMap
  semantic_similarity : ℚ
  ai_comment : String
  status : String

/-- Traffic-light classification of the similarity score. -/
def statusOf (q : ℚ) : String :=
  if 4 / 5 ≤ q then "green" else if 2 / 5 ≤ q then "yellow" else "red"

/-- Row builder of the `generate_report` loop body. -/
def mkRow (en de lv : Doc) (n : ℕ) : Row :=
  let enT := getD en n
  let deT := getD de n
  let lvT := getD lv n
  let enE := extract_entities enT
  let deE := extract_entities deT
  let lvE := extract_entities lvT
  let sim := entity_similarity enE deE
  ⟨n, enT, deT, enE, deE, lvE, sim, "Entity-based factual overlap", statusOf sim⟩

/-- Embedding of `sorted(set(en_map) | set(de_map) | set(lv_map))`. -/
def allNums (en de lv : Doc) : List ℕ :=
  ((en.nums ++ de.nums ++ lv.nums).dedup).insertionSort fun a b => a ≤ b

/-- Embedding of `generate_report` from `final.py` (document loading is
performed by the out-of-scope caller; the maps are taken directly). -/
def generate_report (en de lv : Doc) : List Row :=
  (allNums en de lv).map (mkRow en de lv)

/-- Tags the aggregate score considers: at least one side non-empty. -/
def consideredTags (a b : EntityMap) : List Tag :=
  tagList.filter fun t => a t ≠ [] ∨ b t ≠ []

/-- Tags the aggregate score counts as matched: the two value sets intersect. -/
def matchedTags (a b : EntityMap) : List Tag :=
  tagList.filter fun t => ∃ x, x ∈ a t ∧ x ∈ b t

/-- Institutional codes the legal-reference patterns recognize. -/
inductive LCode : Type
  | EU | ES | EURATOM | EK | EC
deriving DecidableEq

/-- Surface rendering of an institutional code. -/
def renderCode : LCode → List Char
  | .EU => ['E', 'U']
  | .ES => ['E', 'S']
  | .EURATOM => ['E', 'U', 'R', 'A', 'T', 'O', 'M']
  | .EK => ['E', 'K']
  | .EC => ['E', 'C']

/-- Equivalence mapping on codes (`ES` to `EU`, `EK` to `EC`). -/
def mappedCode : LCode → LCode
  | .EU => .EU
  | .ES => .EU
  | .EURATOM => .EURATOM
  | .EK => .EC
  | .EC => .EC

/-- Comma-separated code list without spaces. -/
def sepComma (rs : List (List Char)) : List Char :=
  match rs with
  | [] => []
  | r :: rest => r ++ (rest.map fun d => ',' :: d).flatten

/-- Legal-reference span `(CODE[,CODE...])A/B` built from a code list and two
digit strings, the shape quantified over in the C2 analysis. -/
def legalSpan (codes : List LCode) (a b : List Char) : List Char :=
  '(' :: sepComma (codes.map renderCode) ++ ')' :: a ++ '/' :: b

/-- Canonical code list the normalizer is expected to emit for a parsed span:
equivalence-mapped, deduplicated, priority-ordered. -/
def canonCodes (codes : List LCode) : List (List Char) :=
  dedupSortCodes (codes.map fun k => renderCode (mappedCode k))

/-! ### Claim theorems -/

/-- C1: of the three date surface forms, the English and the numeric one do
normalize to `2025-03-18`, but the Latvian form `2025. gada 18. marts` does
not, in either copy of `normalize_date`: the code strips the inflection from
`marts`, obtaining the stem `mart`, which is not a key of `MONTHS` (whose
Latvian keys are full forms), so the Latvian branch never fires and the raw
text is returned (`final.py` additionally having erased `gada`, leaving a
double space).  This contradicts the stated cross-format equivalence and the
`MANUAL` copy's own comment, so the claim is right and the code is wrong. -/
theorem C1_date_cross_format_eval :
    normalize_date "18 March 2025" = "2025-03-18" ∧
    normalize_date "18.03.2025" = "2025-03-18" ∧
    manual_normalize_date "18 March 2025" = "2025-03-18" ∧
    manual_normalize_date "18.03.2025" = "2025-03-18" ∧
    normalize_date "2025. gada 18. marts" = "2025.  18. marts" ∧
    manual_normalize_date "2025. gada 18. marts" = "2025. gada 18. marts" ∧
    normalize_date "2025. gada 18. marts" ≠ "2025-03-18" ∧
    manual_normalize_date "2025. gada 18. marts" ≠ "2025-03-18" :=
  ⟨rfl, rfl, rfl, rfl, rfl, rfl, by decide, by decide⟩

/-- C6: the two legal-reference example spans canonicalize with the code list
deduplicated, equivalence-mapped and ordered; in particular
`Regulation (EU, ES) No. 2021/1234` yields exactly one `EU` (the `ES` having
been mapped onto it), and a span carrying `ES, EK` comes out as `EC, EU` in
the fixed priority order. -/
theorem C6_legal_ref_code_equivalence :
    normalize_entity .legal_ref "Regulation (EU, ES) No. 2021/1234" = "(EU)2021/1234" ∧
    normalize_entity .legal_ref "(EC) 1234/2021" = "(EC)1234/2021" ∧
    normalize_entity .legal_ref "(ES, EK) 2021/99" = "(EC, EU)2021/99" ∧
    normalize_entity .legal_ref "(EC, EURATOM, EU) 2021/7" = "(EC, EU, EURATOM)2021/7" :=
  ⟨rfl, rfl, rfl, rfl⟩

/-- C4: the significant-mismatch predicate is false on two empty collections,
false whenever the two collections share a canonical value (whatever the
counts on either side), and true in every other case. -/
theorem C4_significant_mismatch_cases (en de : List String) :
    ((en = [] ∧ de = []) → is_significant_mismatch en de = false) ∧
    ((∃ x, x ∈ en ∧ x ∈ de) → is_significant_mismatch en de = false) ∧
    (¬(en = [] ∧ de = []) → (∀ x ∈ en, x ∉ de) → is_significant_mismatch en de = true) := by
  refine ⟨fun h => ?_, fun h => ?_, fun h1 h2 => ?_⟩
  · obtain ⟨h1, h2⟩ := h
    subst h1; subst h2; rfl
  · obtain ⟨x, hxa, hxb⟩ := h
    have hany : en.any (fun y => de.contains y) = true := by
      simp only [List.any_eq_true]
      exact ⟨x, hxa, by simpa using hxb⟩
    cases hc : en.isEmpty && de.isEmpty with
    | true => simp [is_significant_mismatch, hc]
    | false =>
      simp [is_significant_mismatch, hc, hany]
      exact ⟨x, hxa, hxb⟩
  · have hany : en.any (fun y => de.contains y) = false := by
      simp only [List.any_eq_false]
      intro x hx
      simpa using h2 x hx
    cases hc : en.isEmpty && de.isEmpty with
    | true =>
      refine absurd ?_ h1
      simp only [Bool.and_eq_true, List.isEmpty_iff] at hc
      exact hc
    | false =>
      simp [is_significant_mismatch, hc, hany]
      intro x hx
      exact h2 x hx

/-- C4 witness: the spec's two examples, obtained from the case theorem. -/
theorem C4_significant_mismatch_witness :
    is_significant_mismatch ["2025-01-01"] ["2025-01-01", "2025-02-01"] = false ∧
    is_significant_mismatch ["2025-01-01"] [] = true :=
  ⟨(C4_significant_mismatch_cases _ _).2.1 ⟨"2025-01-01", by decide, by decide⟩,
   (C4_significant_mismatch_cases _ _).2.2 (by decide) (by decide)⟩

theorem simStep_spec (a b : EntityMap) (ts : List Tag) (acc : ℕ × ℕ) :
    ts.foldl (simStep a b) acc =
      (acc.1 + (ts.filter fun t => a t ≠ [] ∨ b t ≠ []).length,
       acc.2 + (ts.filter fun t => ∃ x, x ∈ a t ∧ x ∈ b t).length) := by
  induction ts generalizing acc with
  | nil => simp
  | cons t rest ih =>
    rw [List.foldl_cons, ih]
    by_cases hc : a t ≠ [] ∨ b t ≠ []
    case neg =>
      have hae : a t = [] ∧ b t = [] := by
        push_neg at hc
        exact hc
      have hnomatch : ¬∃ x, x ∈ a t ∧ x ∈ b t := by
        rintro ⟨x, hx, _⟩
        simp [hae.1] at hx
      have hstep : simStep a b acc t = acc := by
        simp [simStep, hae.1, hae.2]
      rw [hstep]
      simp only [List.filter_cons, decide_eq_true_eq]
      rw [if_neg hc, if_neg hnomatch]
    case pos =>
      have hcond : ((a t).isEmpty && (b t).isEmpty) = false := by
        rcases hc with h | h <;> simp [List.isEmpty_iff, h]
      by_cases hm : ∃ x, x ∈ a t ∧ x ∈ b t
      · have hany : (a t).any (fun x => (b t).contains x) = true := by
          obtain ⟨x, hx, hx2⟩ := hm
          simp only [List.any_eq_true]
          exact ⟨x, hx, by simpa using hx2⟩
        have hstep : simStep a b acc t = (acc.1 + 1, acc.2 + 1) := by
          unfold simStep
          dsimp only
          rw [hcond, hany]
          simp
        rw [hstep]
        simp only [List.filter_cons, decide_eq_true_eq]
        rw [if_pos hc, if_pos hm]
        simp only [Prod.mk.injEq, List.length_cons]
        refine ⟨by omega, ?_⟩
        first
        | trivial
        | omega
      · have hany : (a t).any (fun x => (b t).contains x) = false := by
          simp only [List.any_eq_false]
          intro x hx hcontra
          exact hm ⟨x, hx, by simpa using hcontra⟩
        have hstep : simStep a b acc t = (acc.1 + 1, acc.2) := by
          unfold simStep
          dsimp only
          rw [hcond, hany]
          simp
        rw [hstep]
        simp only [List.filter_cons, decide_eq_true_eq]
        rw [if_pos hc, if_neg hm]
        simp only [Prod.mk.injEq, List.length_cons]
        refine ⟨by omega, ?_⟩
        first
        | trivial
        | omega

/-- C3: the aggregate similarity score is 1 when neither side has entities,
0 when exactly one side has them, and otherwise the number of tags whose two
value sets intersect divided by the number of tags asserted by at least one
side, rounded to three decimals. -/
theorem C3_entity_similarity_formula (a b : EntityMap) :
    ((∀ t ∈ tagList, a t = []) → (∀ t ∈ tagList, b t = []) →
      entity_similarity a b = 1) ∧
    ((∀ t ∈ tagList, a t = []) → (∃ t ∈ tagList, b t ≠ []) →
      entity_similarity a b = 0) ∧
    ((∃ t ∈ tagList, a t ≠ []) → (∀ t ∈ tagList, b t = []) →
      entity_similarity a b = 0) ∧
    ((∃ t ∈ tagList, a t ≠ []) → (∃ t ∈ tagList, b t ≠ []) →
      entity_similarity a b =
        round3 (((matchedTags a b).length : ℚ) / ((consideredTags a b).length : ℚ))) := by
  have hEmpA : emapEmpty a = true ↔ ∀ t ∈ tagList, a t = [] := by
    simp [emapEmpty, List.all_eq_true, List.isEmpty_iff]
  have hEmpB : emapEmpty b = true ↔ ∀ t ∈ tagList, b t = [] := by
    simp [emapEmpty, List.all_eq_true, List.isEmpty_iff]
  refine ⟨fun hA hB => ?_, fun hA hB => ?_, fun hA hB => ?_, fun hA hB => ?_⟩
  · simp [entity_similarity, hEmpA.mpr hA, hEmpB.mpr hB]
  · have hb : emapEmpty b = false := by
      cases h : emapEmpty b with
      | false => rfl
      | true =>
        obtain ⟨t, ht, hne⟩ := hB
        exact absurd (hEmpB.mp h t ht) hne
    simp [entity_similarity, hEmpA.mpr hA, hb]
  · have ha : emapEmpty a = false := by
      cases h : emapEmpty a with
      | false => rfl
      | true =>
        obtain ⟨t, ht, hne⟩ := hA
        exact absurd (hEmpA.mp h t ht) hne
    simp [entity_similarity, ha, hEmpB.mpr hB]
  · have ha : emapEmpty a = false := by
      cases h : emapEmpty a with
      | false => rfl
      | true =>
        obtain ⟨t, ht, hne⟩ := hA
        exact absurd (hEmpA.mp h t ht) hne
    have hb : emapEmpty b = false := by
      cases h : emapEmpty b with
      | false => rfl
      | true =>
        obtain ⟨t, ht, hne⟩ := hB
        exact absurd (hEmpB.mp h t ht) hne
    have hfold := simStep_spec a b tagList (0, 0)
    have htotpos : (consideredTags a b).length ≠ 0 := by
      obtain ⟨t, ht, hne⟩ := hA
      have hmem : t ∈ consideredTags a b := by
        simp only [consideredTags, List.mem_filter, decide_eq_true_eq]
        exact ⟨ht, Or.inl hne⟩
      intro hlen
      rw [List.length_eq_zero] at hlen
      simp [hlen] at hmem
    unfold entity_similarity
    rw [ha, hb]
    simp only [Bool.and_self, Bool.or_self, Bool.false_eq_true, if_false]
    rw [hfold]
    simp only [Nat.zero_add]
    rw [if_neg (by simpa [consideredTags] using htotpos)]
    rfl

/-- C3 witness: the vacuous, one-sided and two-sided cases at concrete
mappings. -/
theorem C3_entity_similarity_witness :
    entity_similarity (fun _ => []) (fun _ => []) = 1 ∧
    entity_similarity (fun _ => []) (fun t => if t = .date then ["x"] else []) = 0 ∧
    entity_similarity (fun t => if t = .date then ["x"] else [])
      (fun t => if t = .date then ["x"] else []) =
      round3 ((List.length (matchedTags (fun t => if t = .date then ["x"] else [])
          (fun t => if t = .date then ["x"] else [])) : ℚ) /
        (List.length (consideredTags (fun t => if t = .date then ["x"] else [])
          (fun t => if t = .date then ["x"] else [])) : ℚ)) :=
  ⟨(C3_entity_similarity_formula _ _).1 (by decide) (by decide),
   (C3_entity_similarity_formula _ _).2.1 (by decide) ⟨.date, by decide, by decide⟩,
   (C3_entity_similarity_formula _ _).2.2.2 ⟨.date, by decide, by decide⟩
     ⟨.date, by decide, by decide⟩⟩

/-- C7 counterexample: in the EN/DE paragraph pair below the English side
asserts `50%` and the German side asserts no percent entity, and a percent
mismatch is indeed recorded — but its English-only set is `["50%"]`, not
`["50.0"]` as the claim states: the percent span keeps its `%` sign, so
`float()` parsing fails and the normalizer returns the cleaned span. -/
theorem C7_percent_counterexample :
    extract_entities "2025: 50%" .percent = ["50%"] ∧
    extract_entities "2025: halb" .percent = [] ∧
    mismatchesFor (extract_entities "2025: 50%") (extract_entities "2025: halb") =
      [⟨.percent, ["50%"], []⟩] ∧
    setDiff (extract_entities "2025: 50%" .percent)
        (extract_entities "2025: halb" .percent) ≠ ["50.0"] :=
  ⟨rfl, rfl, rfl, by decide⟩

/-- C7 amended: extraction yields the percent tag only on the English side, a
significant mismatch is recorded with English-only set `{"50%"}` (not
`{"50.0"}`) and empty German-only set, and the tag counts as unmatched in the
similarity denominator (here one matched tag out of two considered). -/
theorem C7_percent_mismatch_amended :
    extract_entities "2025: 50%" .percent = ["50%"] ∧
    extract_entities "2025: halb" .percent = [] ∧
    is_significant_mismatch (extract_entities "2025: 50%" .percent)
      (extract_entities "2025: halb" .percent) = true ∧
    mismatchesFor (extract_entities "2025: 50%") (extract_entities "2025: halb") =
      [⟨.percent, ["50%"], []⟩] ∧
    setDiff (extract_entities "2025: 50%" .percent)
      (extract_entities "2025: halb" .percent) = ["50%"] ∧
    setDiff (extract_entities "2025: halb" .percent)
      (extract_entities "2025: 50%" .percent) = [] ∧
    Tag.percent ∈ consideredTags (extract_entities "2025: 50%") (extract_entities "2025: halb") ∧
    Tag.percent ∉ matchedTags (extract_entities "2025: 50%") (extract_entities "2025: halb") ∧
    (consideredTags (extract_entities "2025: 50%") (extract_entities "2025: halb")).length = 2 ∧
    (matchedTags (extract_entities "2025: 50%") (extract_entities "2025: halb")).length = 1 ∧
    entity_similarity (extract_entities "2025: 50%") (extract_entities "2025: halb") =
      round3 (1 / 2) := by
  refine ⟨rfl, rfl, rfl, rfl, rfl, rfl, ?_, ?_, by decide, by decide, rfl⟩
  · decide
  · decide

/-- C9 counterexample: with an English document holding paragraph 1, an empty
German document and a Latvian document holding paragraph 5, the report
contains a row for paragraph 5, which is present in neither of the two
compared documents — the code builds one row per number of the three-way
union, not of the EN/DE union. -/
theorem C9_lv_only_row_counterexample :
    ((generate_report ⟨[1], fun n => if n = 1 then "a" else ""⟩ ⟨[], fun _ => ""⟩
        ⟨[5], fun n => if n = 5 then "b" else ""⟩).map fun r => r.para_number) = [1, 5] ∧
    (5 ∉ (⟨[1], fun n => if n = 1 then "a" else ""⟩ : Doc).nums ∧
     5 ∉ (⟨[], fun _ => ""⟩ : Doc).nums) :=
  ⟨rfl, by decide, by decide⟩

/-- Helper: the paragraph numbers of the report rows are exactly the sorted
deduplicated union of the three documents' numbers. -/
theorem report_para_numbers (en de lv : Doc) :
    ((generate_report en de lv).map fun r => r.para_number) = allNums en de lv := by
  unfold generate_report
  rw [List.map_map]
  have hcomp : ((fun (r : Row) => r.para_number) ∘ mkRow en de lv) = fun n => n := rfl
  rw [hcomp, List.map_id']

/-- C9 amended: the report contains exactly one row for every paragraph
number present in at least one of the three supplied documents (the Latvian
one included; a number missing on one side contributes empty text), and the
rows appear in strictly ascending order of paragraph number. -/
theorem C9_report_rows_amended (en de lv : Doc) :
    (((generate_report en de lv).map fun r => r.para_number).Sorted (· < ·)) ∧
    (((generate_report en de lv).map fun r => r.para_number).Nodup) ∧
    (∀ n : ℕ, (n ∈ (generate_report en de lv).map fun r => r.para_number) ↔
      (n ∈ en.nums ∨ n ∈ de.nums ∨ n ∈ lv.nums)) := by
  rw [report_para_numbers]
  have hnodup : (allNums en de lv).Nodup :=
    (List.perm_insertionSort _ _).symm.nodup (List.nodup_dedup _)
  refine ⟨?_, hnodup, fun n => ?_⟩
  · exact (List.sorted_insertionSort _ _).lt_of_le hnodup
  · simp [allNums, List.mem_insertionSort, List.mem_dedup, List.mem_append, or_assoc]

/-- Helper: searching a list of naturals for an element equal to a member
finds exactly that member. -/
theorem find?_self_of_mem (l : List ℕ) (n : ℕ) (h : n ∈ l) :
    l.find? (fun m => m == n) = some n := by
  induction l with
  | nil => cases h
  | cons c rest ih =>
    by_cases hc : c = n
    · subst hc
      simp
    · rw [List.find?_cons_of_neg _ (by simp [hc])]
      rcases List.mem_cons.mp h with h1 | h1
      · exact absurd h1.symm hc
      · exact ih h1

/-- C10: the Latvian document does not influence the comparison verdict: for
every paragraph number present in the English or the German document, two
report runs differing only in the Latvian document produce that paragraph's row
with identical similarity score and identical status label. -/
theorem C10_lv_independent_verdict (en de lv lv' : Doc) (n : ℕ)
    (h : n ∈ en.nums ∨ n ∈ de.nums) :
    (((generate_report en de lv).find? fun r => r.para_number == n).map
        fun r => (r.semantic_similarity, r.status)) =
    (((generate_report en de lv').find? fun r => r.para_number == n).map
        fun r => (r.semantic_similarity, r.status)) := by
  have hfind : ∀ lv2 : Doc,
      ((generate_report en de lv2).find? fun r => r.para_number == n) =
        some (mkRow en de lv2 n) := by
    intro lv2
    have hmem : n ∈ allNums en de lv2 := by
      simp only [allNums, List.mem_insertionSort, List.mem_dedup, List.mem_append]
      rcases h with h1 | h1
      · exact Or.inl (Or.inl h1)
      · exact Or.inl (Or.inr h1)
    unfold generate_report
    rw [List.find?_map]
    have hcomp : ((fun (r : Row) => r.para_number == n) ∘ mkRow en de lv2) =
        fun m => m == n := rfl
    rw [hcomp, find?_self_of_mem _ _ hmem]
    rfl
  rw [hfind lv, hfind lv']
  rfl

/-- C10 witness: a concrete pair of runs differing only in the Latvian
document, compared at paragraph 1. -/
theorem C10_lv_independent_verdict_witness :
    (((generate_report ⟨[1], fun _ => "7%"⟩ ⟨[1], fun _ => "7 %"⟩
          ⟨[1], fun _ => "x"⟩).find? fun r => r.para_number == 1).map
        fun r => (r.semantic_similarity, r.status)) =
    (((generate_report ⟨[1], fun _ => "7%"⟩ ⟨[1], fun _ => "7 %"⟩
          ⟨[2], fun _ => "2030"⟩).find? fun r => r.para_number == 1).map
        fun r => (r.semantic_similarity, r.status)) :=
  C10_lv_independent_verdict _ _ _ _ 1 (by decide)

/-- C8: on every raw span, the number and the percent tag share one
normalizer, which removes spaces and turns commas into periods, then returns
the decimal string of the parsed float value when the cleaned text parses as
a Python float, and the cleaned text itself unchanged when it does not; the
two concrete conjuncts exercise both paths. -/
theorem C8_number_percent_normalizer (s : String) :
    normalize_entity .number s = normalize_entity .percent s ∧
    (pyParseFloat (strReplace (strReplace (stripWS s.data) [' '] []) [','] ['.']) = none →
      normalize_entity .number s =
        ⟨strReplace (strReplace (stripWS s.data) [' '] []) [','] ['.']⟩) ∧
    (∀ p : PyFloat,
      pyParseFloat (strReplace (strReplace (stripWS s.data) [' '] []) [','] ['.']) = some p →
        normalize_entity .number s = ⟨reprFloat p⟩) ∧
    normalize_number "1 234,5" = "1234.5" ∧
    normalize_number "12.34.56" = "12.34.56" := by
  refine ⟨rfl, fun h => ?_, fun p hp => ?_, rfl, rfl⟩
  · show (⟨normNumL (stripWS s.data)⟩ : String) = _
    unfold normNumL
    dsimp only
    rw [h]
  · show (⟨normNumL (stripWS s.data)⟩ : String) = _
    unfold normNumL
    dsimp only
    rw [hp]

/-- C8 witness: the success path at the span `50`, the failure path at the
span `50%`. -/
theorem C8_number_percent_normalizer_witness :
    normalize_entity .number "50" = "50.0" ∧
    normalize_entity .number "50%" = "50%" :=
  ⟨(C8_number_percent_normalizer "50").2.2.1 (.finite false 5 1) rfl,
   (C8_number_percent_normalizer "50%").2.1 rfl⟩

/-! ### Character and scanning helper lemmas -/

/-- Characters with different code points are not `==`. -/
theorem beq_false_of_toNat_ne {c d : Char} (h : c.toNat ≠ d.toNat) : (c == d) = false := by
  cases hbe : c == d with
  | false => rfl
  | true => exact absurd (congrArg Char.toNat (eq_of_beq hbe)) h

/-- Printable ASCII below the letters is fixed by `pyLowerChar`. -/
theorem pyLowerChar_id_of_le64 {c : Char} (h : c.toNat ≤ 64) : pyLowerChar c = c := by
  have hne : ∀ d : Char, 64 < d.toNat → (c == d) = false := fun d hd =>
    beq_false_of_toNat_ne (by omega)
  have h0 : (decide (65 ≤ c.toNat) && decide (c.toNat ≤ 90)) = false := by
    have h1 : ¬ 65 ≤ c.toNat := by omega
    simp [h1]
  unfold pyLowerChar
  simp only [h0, Bool.false_eq_true, if_false,
    hne 'Ā' (by decide), hne 'Č' (by decide), hne 'Ē' (by decide), hne 'Ģ' (by decide),
    hne 'Ī' (by decide), hne 'Ķ' (by decide), hne 'Ļ' (by decide), hne 'Ņ' (by decide),
    hne 'Ō' (by decide), hne 'Ŗ' (by decide), hne 'Š' (by decide), hne 'Ū' (by decide),
    hne 'Ž' (by decide), hne 'Ä' (by decide), hne 'Ö' (by decide), hne 'Ü' (by decide)]

/-- Characters below the lower-case letters are fixed by `pyUpperChar`. -/
theorem pyUpperChar_id_of_le96 {c : Char} (h : c.toNat ≤ 96) : pyUpperChar c = c := by
  have hne : ∀ d : Char, 96 < d.toNat → (c == d) = false := fun d hd =>
    beq_false_of_toNat_ne (by omega)
  have h0 : (decide (97 ≤ c.toNat) && decide (c.toNat ≤ 122)) = false := by
    have h1 : ¬ 97 ≤ c.toNat := by omega
    simp [h1]
  unfold pyUpperChar
  simp only [h0, Bool.false_eq_true, if_false,
    hne 'ā' (by decide), hne 'č' (by decide), hne 'ē' (by decide), hne 'ģ' (by decide),
    hne 'ī' (by decide), hne 'ķ' (by decide), hne 'ļ' (by decide), hne 'ņ' (by decide),
    hne 'ō' (by decide), hne 'ŗ' (by decide), hne 'š' (by decide), hne 'ū' (by decide),
    hne 'ž' (by decide), hne 'ä' (by decide), hne 'ö' (by decide), hne 'ü' (by decide)]

/-- Printable ASCII other than the space is never Python whitespace. -/
theorem pyWS_false_of_printable {c : Char} (h1 : 33 ≤ c.toNat) (h2 : c.toNat ≤ 126) :
    pyWS c = false := by
  have hne : ∀ d : Char, d.toNat < 33 ∨ 126 < d.toNat → (c == d) = false := fun d hd =>
    beq_false_of_toNat_ne (by omega)
  unfold pyWS
  simp only [hne ' ' (by decide), hne '\t' (by decide), hne '\n' (by decide),
    hne '\r' (by decide), hne (Char.ofNat 11) (by decide), hne (Char.ofNat 12) (by decide),
    hne (Char.ofNat 0xA0) (by decide), hne (Char.ofNat 0x2009) (by decide),
    hne (Char.ofNat 0x202F) (by decide), hne (Char.ofNat 0x2028) (by decide),
    hne (Char.ofNat 0x2029) (by decide), Bool.or_self, Bool.or_false]

/-- A case-insensitive comparison between a letter and a digit fails. -/
theorem ciEq_false_of_lower_digit {k c : Char} (hk : 96 < (pyLowerChar k).toNat)
    (hc : isDigitC c = true) : ciEq k c = false := by
  have hc' : c.toNat ≤ 57 ∧ 48 ≤ c.toNat := by
    unfold isDigitC at hc
    simp only [Bool.and_eq_true, decide_eq_true_eq] at hc
    omega
  unfold ciEq
  rw [show pyLowerChar c = c from pyLowerChar_id_of_le64 (by omega)]
  exact beq_false_of_toNat_ne (by omega)

/-- Dropping a whitespace prefix of a list whose head is not whitespace is
the identity. -/
theorem skipWS_id_of_head {l : List Char} (h : ∀ c ∈ l.take 1, pyWS c = false) :
    skipWS l = l := by
  cases l with
  | nil => rfl
  | cons c rest =>
    have hc := h c (by simp)
    simp [skipWS, List.dropWhile_cons, hc]

/-- Stripping is the identity on a whitespace-free list. -/
theorem stripWS_id_of_noWS {l : List Char} (h : ∀ c ∈ l, pyWS c = false) :
    stripWS l = l := by
  unfold stripWS
  have h1 : l.dropWhile (fun c => pyWS c) = l := by
    cases l with
    | nil => rfl
    | cons c rest => simp [List.dropWhile_cons, h c (by simp)]
  rw [h1]
  have h2 : l.reverse.dropWhile (fun c => pyWS c) = l.reverse := by
    cases hr : l.reverse with
    | nil => rfl
    | cons c rest =>
      have hc : c ∈ l := by
        have : c ∈ l.reverse := by rw [hr]; simp
        simpa using this
      simp [List.dropWhile_cons, h c hc]
  rw [h2, List.reverse_reverse]

/-- Whitespace collapsing is the identity on a whitespace-free list. -/
theorem collapseWSAux_id_of_noWS {l : List Char} (h : ∀ c ∈ l, pyWS c = false) :
    ∀ b, collapseWSAux b l = l := by
  induction l with
  | nil => intro b; rfl
  | cons c rest ih =>
    intro b
    have hc := h c (by simp)
    unfold collapseWSAux
    rw [hc]
    simp only [Bool.false_eq_true, if_false]
    rw [ih (fun d hd => h d (List.mem_cons_of_mem _ hd)) false]

/-- Text cleaning is the identity on a whitespace-free list. -/
theorem cleanL_id_of_noWS {l : List Char} (h : ∀ c ∈ l, pyWS c = false) :
    cleanL l = l := by
  unfold cleanL
  have hmap : (l.map fun c =>
      if c == Char.ofNat 0xA0 || c == Char.ofNat 0x202F || c == Char.ofNat 0x2009
      then ' ' else c) = l := by
    have : ∀ c ∈ l, (if c == Char.ofNat 0xA0 || c == Char.ofNat 0x202F ||
        c == Char.ofNat 0x2009 then ' ' else c) = c := by
      intro c hc
      have hw := h c hc
      unfold pyWS at hw
      simp only [Bool.or_eq_false_iff] at hw
      simp [hw.1.1.1.1.2, hw.1.1.1.2, hw.1.1.2]
    calc (l.map _) = l.map id := List.map_congr_left this
    _ = l := List.map_id l
  rw [hmap, collapseWS, collapseWSAux_id_of_noWS h, stripWS_id_of_noWS h]

/-- Greedy class run on an explicit run-remainder split. -/
theorem takeClass1_append {p : Char → Bool} {run rest : List Char}
    (hne : run ≠ []) (hall : ∀ c ∈ run, p c = true)
    (hstop : ∀ c ∈ rest.take 1, p c = false) :
    takeClass1 p (run ++ rest) = some (run, rest) := by
  unfold takeClass1
  have htw : (run ++ rest).takeWhile p = run := by
    rw [List.takeWhile_append_of_pos hall]
    cases rest with
    | nil => simp
    | cons c cs => simp [List.takeWhile_cons, hstop c (by simp)]
  rw [htw, if_neg hne, List.drop_left' rfl]

/-- An exact digit group on an explicit split. -/
theorem exactDigits_append {n : ℕ} {a rest : List Char} (hlen : a.length = n)
    (hall : ∀ c ∈ a, isDigitC c = true) :
    exactDigits n (a ++ rest) = some (a, rest) := by
  unfold exactDigits
  dsimp only
  rw [List.take_left' hlen, List.drop_left' hlen]
  have hcond : (decide (a.length = n) && a.all isDigitC) = true := by
    have h1 : a.all isDigitC = true := List.all_eq_true.mpr fun c hc => hall c hc
    simp [hlen, h1]
  rw [hcond]
  simp

/-- A digit run covering a whole non-empty list. -/
theorem digitRun_all {b : List Char} (hne : b ≠ []) (hall : ∀ c ∈ b, isDigitC c = true) :
    digitRun b = some (b, []) := by
  have h := @takeClass1_append isDigitC b [] hne hall (by simp)
  simpa [digitRun] using h

/-- ASCII letters are printable. -/
theorem alpha_printable {c : Char} (h : isAsciiAlpha c = true) :
    33 ≤ c.toNat ∧ c.toNat ≤ 126 := by
  unfold isAsciiAlpha at h
  simp only [Bool.or_eq_true, Bool.and_eq_true, decide_eq_true_eq] at h
  rcases h with ⟨h1, h2⟩ | ⟨h1, h2⟩ <;> omega

/-- Behaviour of the comma-separated code-list loop on a rendered list. -/
theorem codesLoopF_spec (rs : List (List Char)) :
    ∀ (fuel : ℕ) (acc : List (List Char)) (tail : List Char),
    (∀ r ∈ rs, r ≠ [] ∧ ∀ c ∈ r, isAsciiAlpha c = true) →
    (∀ c ∈ tail.take 1, pyWS c = false ∧ (c == ',') = false ∧ isAsciiAlpha c = false) →
    rs.length ≤ fuel →
    codesLoopF fuel acc ((rs.map fun r => ',' :: r).flatten ++ tail) = (acc ++ rs, tail) := by
  induction rs with
  | nil =>
    intro fuel acc tail _ htail _
    simp only [List.map_nil, List.flatten_nil, List.nil_append, List.append_nil]
    cases fuel with
    | zero => rfl
    | succ f =>
      unfold codesLoopF
      rw [skipWS_id_of_head fun c hc => (htail c hc).1]
      cases tail with
      | nil => rfl
      | cons c cs =>
        have hc := htail c (by simp)
        split
        · rename_i r2 heq
          rw [List.cons.injEq] at heq
          exact absurd (beq_iff_eq.mpr heq.1) (by simp [hc.2.1])
        · rfl
  | cons r rs' ih =>
    intro fuel acc tail hrs htail hfuel
    obtain ⟨hrne, hralpha⟩ := hrs r (by simp)
    obtain ⟨r0, rr, hreq⟩ := List.exists_cons_of_ne_nil hrne
    subst hreq
    cases fuel with
    | zero => simp at hfuel
    | succ f =>
      have hinput : (((r0 :: rr) :: rs').map fun x => ',' :: x).flatten ++ tail =
          ',' :: ((r0 :: rr) ++ (((rs'.map fun x => ',' :: x).flatten) ++ tail)) := by
        simp [List.flatten_cons]
      rw [hinput]
      unfold codesLoopF
      rw [skipWS_id_of_head (by intro c hc; simp at hc; subst hc; decide)]
      have hr0 : isAsciiAlpha r0 = true := hralpha r0 (by simp)
      have hrest : skipWS ((r0 :: rr) ++ ((rs'.map fun x => ',' :: x).flatten ++ tail)) =
          (r0 :: rr) ++ ((rs'.map fun x => ',' :: x).flatten ++ tail) := by
        apply skipWS_id_of_head
        intro c hc
        simp only [List.cons_append, List.take_succ_cons, List.take_zero,
          List.mem_singleton] at hc
        subst hc
        exact pyWS_false_of_printable (alpha_printable hr0).1 (alpha_printable hr0).2
      have hlr : letterRun ((r0 :: rr) ++ ((rs'.map fun x => ',' :: x).flatten ++ tail)) =
          some (r0 :: rr, (rs'.map fun x => ',' :: x).flatten ++ tail) := by
        apply takeClass1_append hrne hralpha
        intro c hc
        cases rs' with
        | nil =>
          simp only [List.map_nil, List.flatten_nil, List.nil_append] at hc
          exact ((htail c hc).2.2)
        | cons r2 rs'' =>
          simp [List.flatten_cons] at hc
          subst hc
          decide
      split
      · rename_i r2 heq
        have hr2 : r2 = (r0 :: rr) ++ ((rs'.map fun x => ',' :: x).flatten ++ tail) := by
          rw [List.cons.injEq] at heq
          exact heq.2.symm
        subst hr2
        rw [hrest, hlr]
        dsimp only
        rw [ih f (acc ++ [r0 :: rr]) tail (fun x hx => hrs x (by simp [hx])) htail
          (by simpa using hfuel)]
        simp
      · rename_i hne2
        exact absurd rfl (hne2 ((r0 :: rr) ++ ((rs'.map fun x => ',' :: x).flatten ++ tail)))

/-- A keyword alternation fails on a head character that case-insensitively
matches none of the keyword head letters. -/
theorem kwAlt_none {α : Type} (kws : List (List Char)) (c : Char) (rest : List Char)
    (k : List Char → Option α)
    (h : ∀ kw ∈ kws, ∃ k0 ks, kw = k0 :: ks ∧ ciEq k0 c = false) :
    kwAlt kws (c :: rest) k = none := by
  induction kws with
  | nil => rfl
  | cons kw kws' ih =>
    obtain ⟨k0, ks, hkw, hci⟩ := h kw (by simp)
    have h1 : ciPrefix kw (c :: rest) = none := by
      rw [hkw]
      unfold ciPrefix
      rw [hci]
      simp
    unfold kwAlt
    rw [h1]
    simpa using ih fun kw2 hkw2 => h kw2 (by simp [hkw2])

/-- Members of a comma-joined list are commas or code characters. -/
theorem mem_sepComma {c : Char} {rs : List (List Char)} (h : c ∈ sepComma rs) :
    c = ',' ∨ ∃ r ∈ rs, c ∈ r := by
  cases rs with
  | nil => simp [sepComma] at h
  | cons r rest =>
    simp only [sepComma, List.mem_append] at h
    rcases h with h | h
    · exact Or.inr ⟨r, by simp, h⟩
    · rw [List.mem_flatten] at h
      obtain ⟨l, hl, hc⟩ := h
      rw [List.mem_map] at hl
      obtain ⟨d, hd, rfl⟩ := hl
      rcases List.mem_cons.mp hc with rfl | hc2
      · exact Or.inl rfl
      · exact Or.inr ⟨d, by simp [hd], hc2⟩

/-- Digit characters have code points between 48 and 57. -/
theorem digit_bounds {c : Char} (h : isDigitC c = true) :
    48 ≤ c.toNat ∧ c.toNat ≤ 57 := by
  unfold isDigitC at h
  simp only [Bool.and_eq_true, decide_eq_true_eq] at h
  exact h

/-- Code renderings consist of capital letters. -/
theorem renderCode_bounds (k : LCode) : ∀ c ∈ renderCode k, 65 ≤ c.toNat ∧ c.toNat ≤ 90 := by
  cases k <;> decide

/-- Every character of a legal span is printable ASCII below the lower-case
letters. -/
theorem legalSpan_char_bounds {codes : List LCode} {a b : List Char}
    (ha : ∀ c ∈ a, isDigitC c = true) (hb : ∀ c ∈ b, isDigitC c = true) :
    ∀ c ∈ legalSpan codes a b, 33 ≤ c.toNat ∧ c.toNat ≤ 96 := by
  intro c hc
  unfold legalSpan at hc
  simp only [List.mem_cons, List.mem_append] at hc
  rcases hc with ((rfl | hc) | rfl | hc) | rfl | hc
  · decide
  · rcases mem_sepComma hc with rfl | ⟨r, hr, hcr⟩
    · decide
    · rw [List.mem_map] at hr
      obtain ⟨k, _, rfl⟩ := hr
      have := renderCode_bounds k c hcr
      omega
  · decide
  · have := digit_bounds (ha c hc)
    omega
  · decide
  · have := digit_bounds (hb c hc)
    omega

/-- The comma-joined rendering is at least as long as its code count. -/
theorem length_le_flattenComma (rs : List (List Char)) (tail : List Char) :
    rs.length ≤ ((rs.map fun r => ',' :: r).flatten ++ tail).length := by
  induction rs with
  | nil => simp
  | cons r rest ih =>
    simp only [List.map_cons, List.flatten_cons, List.length_cons, List.cons_append,
      List.append_assoc, List.length_append] at ih ⊢
    omega

/-- The code-list parser reads exactly the rendered code list of a span. -/
theorem codesParse_span (codes : List LCode) (tail : List Char)
    (hcne : codes ≠ [])
    (htail : ∀ c ∈ tail.take 1, pyWS c = false ∧ (c == ',') = false ∧
      isAsciiAlpha c = false) :
    codesParse (sepComma (codes.map renderCode) ++ tail) =
      some (codes.map renderCode, tail) := by
  obtain ⟨k, ks, rfl⟩ := List.exists_cons_of_ne_nil hcne
  have hsep : sepComma ((k :: ks).map renderCode) =
      renderCode k ++ ((ks.map renderCode).map fun r => ',' :: r).flatten := by
    simp [sepComma]
  rw [hsep, List.append_assoc]
  have hkne : renderCode k ≠ [] := by cases k <;> decide
  have hkalpha : ∀ c ∈ renderCode k, isAsciiAlpha c = true := by cases k <;> decide
  have hlr : letterRun (renderCode k ++
      ((((ks.map renderCode).map fun r => ',' :: r).flatten) ++ tail)) =
      some (renderCode k, (((ks.map renderCode).map fun r => ',' :: r).flatten) ++ tail) := by
    apply takeClass1_append hkne hkalpha
    intro c hc
    cases hks : ks.map renderCode with
    | nil =>
      rw [hks] at hc
      simp only [List.map_nil, List.flatten_nil, List.nil_append] at hc
      exact (htail c hc).2.2
    | cons r2 rs2 =>
      rw [hks] at hc
      simp [List.flatten_cons] at hc
      subst hc
      decide
  unfold codesParse
  rw [hlr]
  have hloop := codesLoopF_spec (ks.map renderCode)
    ((((ks.map renderCode).map fun r => ',' :: r).flatten) ++ tail).length
    [renderCode k] tail
    (by
      intro r hr
      rw [List.mem_map] at hr
      obtain ⟨k2, _, rfl⟩ := hr
      refine ⟨by cases k2 <;> decide, by cases k2 <;> decide⟩)
    htail (length_le_flattenComma _ _)
  simp only [Option.bind_eq_bind, Option.some_bind]
  rw [hloop]
  simp

/-- The parenthesised code group of a legal span parses to its code list. -/
theorem parenCodes_span (codes : List LCode) (a b : List Char) (hcne : codes ≠ []) :
    parenCodes (legalSpan codes a b) = some (codes.map renderCode, a ++ '/' :: b) := by
  have hspan : legalSpan codes a b =
      '(' :: (sepComma (codes.map renderCode) ++ ')' :: (a ++ '/' :: b)) := by
    unfold legalSpan
    simp [List.cons_append, List.append_assoc]
  have hcp : codesParse (sepComma (codes.map renderCode) ++ ')' :: (a ++ '/' :: b)) =
      some (codes.map renderCode, ')' :: (a ++ '/' :: b)) := by
    apply codesParse_span codes _ hcne
    intro c hc
    simp at hc
    subst hc
    exact ⟨by decide, by decide, by decide⟩
  unfold parenCodes
  rw [hspan]
  split
  · rename_i r0 heq
    rw [List.cons.injEq] at heq
    rw [← heq.2, hcp]
    rfl
  · rename_i hne
    exact absurd rfl (hne _)

/-- The YEAR/NUMBER tail parses the two digit groups of a span remainder. -/
theorem yearNumTail_span (a b : List Char) (ha4 : a.length = 4)
    (ha : ∀ c ∈ a, isDigitC c = true) (hbne : b ≠ [])
    (hb : ∀ c ∈ b, isDigitC c = true) :
    yearNumTail (a ++ '/' :: b) = some (a, b) := by
  have hs1 : skipWS ('/' :: b) = '/' :: b := by
    apply skipWS_id_of_head
    intro c hc
    simp at hc
    subst hc
    decide
  have hs2 : skipWS b = b := by
    apply skipWS_id_of_head
    intro c hc
    have hcb : c ∈ b := List.mem_of_mem_take hc
    have h1 := digit_bounds (hb c hcb)
    exact pyWS_false_of_printable (by omega) (by omega)
  unfold yearNumTail
  rw [exactDigits_append ha4 ha]
  dsimp only
  rw [hs1]
  split
  · rename_i r2 heq
    rw [List.cons.injEq] at heq
    rw [← heq.2, hs2, digitRun_all hbne hb]
  · rename_i hne
    exact absurd rfl (hne _)

/-- The canonicalization pattern of `final.py` matches a legal span at its
start, capturing the code list, the first digit group as the year and the
second as the number. -/
theorem recanonAt_span (codes : List LCode) (a b : List Char)
    (hcne : codes ≠ []) (ha4 : a.length = 4) (ha : ∀ c ∈ a, isDigitC c = true)
    (hbne : b ≠ []) (hb : ∀ c ∈ b, isDigitC c = true) :
    recanonAt finalKws yearNumTail (legalSpan codes a b) =
      some ⟨some (codes.map renderCode), none, a, b⟩ := by
  have hane : a ≠ [] := by
    intro h
    rw [h] at ha4
    simp at ha4
  obtain ⟨a0, a', ha0⟩ := List.exists_cons_of_ne_nil hane
  have ha0d : isDigitC a0 = true := ha a0 (by rw [ha0]; simp)
  have hkeys : ∀ kw ∈ finalKws, ∃ k0 ks, kw = k0 :: ks ∧ ciEq k0 a0 = false := by
    intro kw hkw
    simp only [finalKws, List.mem_cons, List.not_mem_nil, or_false] at hkw
    rcases hkw with rfl | rfl | rfl | rfl | rfl | rfl | rfl | rfl
    · exact ⟨'R', _, rfl, ciEq_false_of_lower_digit (by decide) ha0d⟩
    · exact ⟨'R', _, rfl, ciEq_false_of_lower_digit (by decide) ha0d⟩
    · exact ⟨'R', _, rfl, ciEq_false_of_lower_digit (by decide) ha0d⟩
    · exact ⟨'V', _, rfl, ciEq_false_of_lower_digit (by decide) ha0d⟩
    · exact ⟨'D', _, rfl, ciEq_false_of_lower_digit (by decide) ha0d⟩
    · exact ⟨'D', _, rfl, ciEq_false_of_lower_digit (by decide) ha0d⟩
    · exact ⟨'D', _, rfl, ciEq_false_of_lower_digit (by decide) ha0d⟩
    · exact ⟨'L', _, rfl, ciEq_false_of_lower_digit (by decide) ha0d⟩
  have hskip : skipWS (a ++ '/' :: b) = a ++ '/' :: b := by
    apply skipWS_id_of_head
    intro c hc
    rw [ha0] at hc
    simp at hc
    subst hc
    have h1 := digit_bounds ha0d
    exact pyWS_false_of_printable (by omega) (by omega)
  have hacons : a ++ '/' :: b = a0 :: (a' ++ '/' :: b) := by rw [ha0]; simp
  have hynt : yearNumTail (a0 :: (a' ++ '/' :: b)) = some (a, b) := by
    rw [← hacons]
    exact yearNumTail_span a b ha4 ha hbne hb
  unfold recanonAt
  rw [parenCodes_span codes a b hcne]
  simp only [Option.bind_eq_bind, Option.some_bind]
  rw [hskip, hacons]
  rw [kwAlt_none finalKws a0 (a' ++ '/' :: b) _ hkeys]
  simp only [Option.none_orElse]
  rw [hynt]
  rfl

/-- Leftmost search finds the span match at position zero. -/
theorem recanonSearch_span (codes : List LCode) (a b : List Char)
    (hcne : codes ≠ []) (ha4 : a.length = 4) (ha : ∀ c ∈ a, isDigitC c = true)
    (hbne : b ≠ []) (hb : ∀ c ∈ b, isDigitC c = true) :
    recanonSearch finalKws yearNumTail (legalSpan codes a b) =
      some ⟨some (codes.map renderCode), none, a, b⟩ := by
  have h := recanonAt_span codes a b hcne ha4 ha hbne hb
  have hspan : legalSpan codes a b =
      '(' :: (sepComma (codes.map renderCode) ++ ')' :: (a ++ '/' :: b)) := by
    unfold legalSpan
    simp [List.cons_append, List.append_assoc]
  rw [hspan] at h ⊢
  rw [recanonSearch, h]
  rfl

/-- The `final.py` legal-reference normalizer maps every parenthesised-code
span to its canonical year-first form. -/
theorem normLegalFinal_span (codes : List LCode) (a b : List Char)
    (hcne : codes ≠ []) (ha4 : a.length = 4) (ha : ∀ c ∈ a, isDigitC c = true)
    (hbne : b ≠ []) (hb : ∀ c ∈ b, isDigitC c = true) :
    normLegalFinalL (legalSpan codes a b) =
      '(' :: joinCodes (canonCodes codes) ++ ')' :: a ++ '/' :: b := by
  have hbounds := @legalSpan_char_bounds codes a b ha hb
  have hclean : cleanL (legalSpan codes a b) = legalSpan codes a b :=
    cleanL_id_of_noWS fun c hc =>
      pyWS_false_of_printable (hbounds c hc).1 (by have := (hbounds c hc).2; omega)
  have hupper : (legalSpan codes a b).map pyUpperChar = legalSpan codes a b := by
    calc (legalSpan codes a b).map pyUpperChar = (legalSpan codes a b).map id :=
          List.map_congr_left fun c hc => pyUpperChar_id_of_le96 (hbounds c hc).2
    _ = legalSpan codes a b := List.map_id _
  have hcodes : (codes.map renderCode).map
        (fun c => (equivGet (stripWS c)).map pyUpperChar) =
      codes.map fun k => renderCode (mappedCode k) := by
    rw [List.map_map]
    apply List.map_congr_left
    intro k _
    cases k <;> rfl
  have hne : (codes.map fun k => renderCode (mappedCode k)) ≠ [] := by
    simpa using hcne
  unfold normLegalFinalL
  dsimp only
  rw [hclean, hupper]
  rw [recanonSearch_span codes a b hcne ha4 ha hbne hb]
  dsimp only
  simp only [Option.getD_some]
  rw [hcodes, if_neg hne]
  rfl

/-- C2 counterexample: the `final.py` legal-reference normalizer does not
accept the NUMBER/YEAR source order — `(EU) 123/2021` is returned unchanged
rather than canonicalized to `(EU)2021/123` — and the `MANUAL` copy,
conversely, does not accept the YEAR/NUMBER source order: `(EU) 2021/123`
is returned unchanged.  Each copy accepts exactly one of the two orders, so
no single normalizer accepts both. -/
theorem C2_legal_order_counterexample :
    normalize_entity Tag.legal_ref "(EU) 123/2021" = "(EU) 123/2021" ∧
    "(EU) 123/2021" ≠ "(EU)2021/123" ∧
    manual_normalize_legal "(EU) 2021/123" = "(EU) 2021/123" ∧
    "(EU) 2021/123" ≠ "(EU)2021/123" := by
  exact ⟨by decide, by decide, by decide, by decide⟩

/-- C2 (amended): each legal-reference normalizer accepts one source order
and emits the canonical year-first form for it.  The `final.py` normalizer
canonicalizes every parenthesised-code span whose first digit group is a
four-digit year: for every non-empty code list, four-digit year `a` and
non-empty number `b`, the span `(CODES)a/b` is rewritten to
`(MAPPED-CODES)a/b` with the codes equivalence-mapped, deduplicated and
priority-ordered, the year staying before the number.  Concretely it also
canonicalizes the spaced form `(EU) 2021/123` to `(EU)2021/123`, while the
`MANUAL` copy canonicalizes the NUMBER/YEAR order, `(EU) 1234/2021` to
`(EU)2021/1234` and `(EU) 99/2021` to `(EU)2021/99`; the `MANUAL`
canonicalization pattern additionally accepts a `Council` keyword
alternative, stripping it when word-bounded
(`Council Regulation (EC) No. 1234/2021` to `(EC)2021/1234`) and, when the
keyword survives inside a word and matches with no leading code group,
falling back to the default `EU`
(`XCOUNCIL (EC) 99/2021` to `(EU)2021/99`). -/
theorem C2_legal_canonical_amended :
    (∀ (codes : List LCode) (a b : List Char), codes ≠ [] → a.length = 4 →
      (∀ c ∈ a, isDigitC c = true) → b ≠ [] → (∀ c ∈ b, isDigitC c = true) →
      normLegalFinalL (legalSpan codes a b) =
        '(' :: joinCodes (canonCodes codes) ++ ')' :: a ++ '/' :: b) ∧
    normalize_entity Tag.legal_ref "(EU) 2021/123" = "(EU)2021/123" ∧
    manual_normalize_legal "(EU) 1234/2021" = "(EU)2021/1234" ∧
    manual_normalize_legal "(EU) 99/2021" = "(EU)2021/99" ∧
    manual_normalize_legal "Council Regulation (EC) No. 1234/2021" = "(EC)2021/1234" ∧
    manual_normalize_legal "XCOUNCIL (EC) 99/2021" = "(EU)2021/99" := by
  exact ⟨fun codes a b h1 h2 h3 h4 h5 => normLegalFinal_span codes a b h1 h2 h3 h4 h5,
    by decide, by decide, by decide, by decide, by decide⟩

/-- Witness for the amended C2 statement: the universally quantified part
applied to the code list `[ES, EK]`, year `2021` and number `99` — the codes
are mapped to `EU` and `EC` and reordered, giving `(EC, EU)2021/99`. -/
theorem C2_legal_canonical_amended_witness :
    normLegalFinalL (String.data "(ES,EK)2021/99") = String.data "(EC, EU)2021/99" := by
  have h := C2_legal_canonical_amended.1 [LCode.ES, LCode.EK]
    (String.data "2021") (String.data "99") (by decide) (by decide) (by decide)
    (by decide) (by decide)
  have hs : String.data "(ES,EK)2021/99" =
      legalSpan [LCode.ES, LCode.EK] (String.data "2021") (String.data "99") := by decide
  rw [hs, h]
  decide

/-! ### Idempotence analysis of the number normalizer -/

/-- `str.replace` with a one-character pattern and empty replacement is a
filter (fuelled form). -/
theorem strReplaceF_single_del (c : Char) :
    ∀ fuel s, s.length ≤ fuel →
      strReplaceF fuel s [c] [] = s.filter fun d => !(d == c) := by
  intro fuel
  induction fuel with
  | zero =>
    intro s hs
    have : s = [] := List.eq_nil_of_length_eq_zero (Nat.le_zero.mp hs)
    subst this
    rfl
  | succ f ih =>
    intro s hs
    cases s with
    | nil => rfl
    | cons d rest =>
      unfold strReplaceF
      dsimp only
      by_cases hdc : d = c
      · subst hdc
        rw [if_pos ⟨by simp, by simp [List.isPrefixOf]⟩]
        simp only [List.length_singleton, List.drop_one, List.tail_cons, List.nil_append]
        rw [ih rest (by simpa using Nat.le_of_succ_le_succ hs)]
        rw [List.filter_cons]
        simp
      · have hcond : ¬(([c] : List Char) ≠ [] ∧ [c].isPrefixOf (d :: rest) = true) := by
          simp only [List.isPrefixOf, Bool.and_eq_true, beq_iff_eq, ne_eq, not_and]
          intro _ h2 _
          exact hdc h2.symm
        rw [if_neg hcond, ih rest (by simpa using Nat.le_of_succ_le_succ hs)]
        rw [List.filter_cons, if_pos (by simp [hdc])]

/-- `str.replace` with a one-character pattern and a one-character
replacement is a map (fuelled form). -/
theorem strReplaceF_single_map (c r : Char) :
    ∀ fuel s, s.length ≤ fuel →
      strReplaceF fuel s [c] [r] = s.map fun d => if d == c then r else d := by
  intro fuel
  induction fuel with
  | zero =>
    intro s hs
    have : s = [] := List.eq_nil_of_length_eq_zero (Nat.le_zero.mp hs)
    subst this
    rfl
  | succ f ih =>
    intro s hs
    cases s with
    | nil => rfl
    | cons d rest =>
      unfold strReplaceF
      dsimp only
      by_cases hdc : d = c
      · subst hdc
        rw [if_pos ⟨by simp, by simp [List.isPrefixOf]⟩]
        simp only [List.length_singleton, List.drop_one, List.tail_cons]
        rw [ih rest (by simpa using Nat.le_of_succ_le_succ hs)]
        rw [List.map_cons, if_pos (by simp), List.singleton_append]
      · have hcond : ¬(([c] : List Char) ≠ [] ∧ [c].isPrefixOf (d :: rest) = true) := by
          simp only [List.isPrefixOf, Bool.and_eq_true, beq_iff_eq, ne_eq, not_and]
          intro _ h2 _
          exact hdc h2.symm
        rw [if_neg hcond, ih rest (by simpa using Nat.le_of_succ_le_succ hs)]
        rw [List.map_cons, if_neg (by simp [hdc])]

/-- `str.replace(c, "")` deletes exactly the occurrences of `c`. -/
theorem strReplace_single_del (s : List Char) (c : Char) :
    strReplace s [c] [] = s.filter fun d => !(d == c) :=
  strReplaceF_single_del c s.length s le_rfl

/-- `str.replace(c, r)` with one-character arguments maps `c` to `r`. -/
theorem strReplace_single_map (s : List Char) (c r : Char) :
    strReplace s [c] [r] = s.map fun d => if d == c then r else d :=
  strReplaceF_single_map c r s.length s le_rfl

/-- The head of a `dropWhile` result fails the predicate. -/
theorem dropWhile_take1 (p : Char → Bool) (l : List Char) :
    ∀ c ∈ (l.dropWhile p).take 1, p c = false := by
  induction l with
  | nil => intro c hc; simp at hc
  | cons d t ih =>
    intro c hc
    rw [List.dropWhile_cons] at hc
    by_cases hd : p d = true
    · rw [if_pos hd] at hc
      exact ih c hc
    · rw [if_neg hd] at hc
      simp at hc
      subst hc
      rw [Bool.not_eq_true] at hd
      exact hd

/-- Stripping is the identity when both edge characters are not whitespace. -/
theorem stripWS_id_of_edge {l : List Char} (h1 : ∀ c ∈ l.take 1, pyWS c = false)
    (h2 : ∀ c ∈ l.reverse.take 1, pyWS c = false) : stripWS l = l := by
  unfold stripWS
  cases l with
  | nil => rfl
  | cons d t =>
    have hd1 : (d :: t).dropWhile (fun c => pyWS c) = d :: t := by
      rw [List.dropWhile_cons, if_neg (by simp [h1 d (by simp)])]
    rw [hd1]
    cases hr : (d :: t).reverse with
    | nil => exact absurd hr (by simp)
    | cons e r =>
      have he : pyWS e = false := h2 e (by rw [hr]; simp)
      rw [List.dropWhile_cons, if_neg (by simp [he]), ← hr, List.reverse_reverse]

/-- The last character of a stripped string is not whitespace. -/
theorem stripWS_reverse_take1 (l : List Char) :
    ∀ c ∈ (stripWS l).reverse.take 1, pyWS c = false := by
  unfold stripWS
  rw [List.reverse_reverse]
  exact dropWhile_take1 _ _

/-- The first character of a stripped string is not whitespace. -/
theorem stripWS_take1 (l : List Char) : ∀ c ∈ (stripWS l).take 1, pyWS c = false := by
  intro c hc
  obtain ⟨t, ht⟩ := List.dropWhile_suffix
    (l := (l.dropWhile fun c => pyWS c).reverse) (p := fun c => pyWS c)
  have hpre : stripWS l ++ t.reverse = l.dropWhile fun c => pyWS c := by
    have := congrArg List.reverse ht
    rw [List.reverse_append, List.reverse_reverse] at this
    exact this
  cases hst : stripWS l with
  | nil => rw [hst] at hc; simp at hc
  | cons d u =>
    rw [hst] at hc
    simp at hc
    subst hc
    apply dropWhile_take1 (fun c => pyWS c) l
    rw [← hpre, hst]
    simp

/-- Python `str.strip` is idempotent. -/
theorem stripWS_idem (l : List Char) : stripWS (stripWS l) = stripWS l :=
  stripWS_id_of_edge (stripWS_take1 l) (stripWS_reverse_take1 l)

/-- The space-removal and comma-to-period transform of `normalize_number`
keeps a non-whitespace head character non-whitespace. -/
theorem transform_take1 {u : List Char} (h : ∀ c ∈ u.take 1, pyWS c = false) :
    ∀ c ∈ ((u.filter fun d => !(d == ' ')).map fun d =>
        if d == ',' then '.' else d).take 1, pyWS c = false := by
  cases u with
  | nil => intro c hc; simp at hc
  | cons d t =>
    have hd := h d (by simp)
    have hds : (d == ' ') = false := by
      by_cases hsp : d = ' '
      · subst hsp
        exact absurd hd (by decide)
      · simp [hsp]
    intro c hc
    rw [List.filter_cons, if_pos (by simp [hds])] at hc
    rw [List.map_cons] at hc
    simp at hc
    subst hc
    by_cases hdc : d = ','
    · rw [if_pos (by simp [hdc])]
      decide
    · rw [if_neg (by simp [hdc])]
      exact hd

/-- Characters surviving the transform are neither spaces nor commas. -/
theorem transform_chars {u : List Char} :
    ∀ c ∈ (u.filter fun d => !(d == ' ')).map fun d => if d == ',' then '.' else d,
      (c == ' ') = false ∧ (c == ',') = false := by
  intro c hc
  rw [List.mem_map] at hc
  obtain ⟨d, hd, rfl⟩ := hc
  rw [List.mem_filter] at hd
  by_cases h1 : d = ','
  · rw [if_pos (by simp [h1])]
    exact ⟨by decide, by decide⟩
  · rw [if_neg (by simp [h1])]
    exact ⟨by simpa using hd.2, by simp [h1]⟩

/-- The transform is the identity on space-free comma-free text. -/
theorem transform_id {u : List Char}
    (h : ∀ c ∈ u, (c == ' ') = false ∧ (c == ',') = false) :
    ((u.filter fun d => !(d == ' ')).map fun d => if d == ',' then '.' else d) = u := by
  have hf : u.filter (fun d => !(d == ' ')) = u :=
    List.filter_eq_self.mpr fun c hc => by simp [(h c hc).1]
  rw [hf]
  calc u.map (fun d => if d == ',' then '.' else d) = u.map id :=
        List.map_congr_left fun c hc => by simp [(h c hc).2]
  _ = u := List.map_id u

/-- The fuelled digit expansion agrees with the library digit function. -/
theorem natDigitsF_eq (fuel : ℕ) : ∀ n ≤ fuel, natDigitsF fuel n = Nat.digits 10 n := by
  induction fuel with
  | zero =>
    intro n hn
    have : n = 0 := Nat.le_zero.mp hn
    subst this
    simp [natDigitsF]
  | succ f ih =>
    intro n hn
    unfold natDigitsF
    by_cases hz : n = 0
    · subst hz
      simp
    · rw [if_neg hz, Nat.digits_def' (by norm_num : (1:ℕ) < 10) (Nat.pos_of_ne_zero hz)]
      have hd : n / 10 ≤ f := by
        have := Nat.div_lt_self (Nat.pos_of_ne_zero hz) (by norm_num : (1:ℕ) < 10)
        omega
      rw [ih (n / 10) hd]

/-- The fuel `n` suffices for the digit expansion of `n`. -/
theorem natDigits10_eq (n : ℕ) : natDigits10 n = Nat.digits 10 n :=
  natDigitsF_eq n n le_rfl

/-- Round trip of the most-significant-first digit expansion. -/
theorem natOfMSD_msdDigits (n : ℕ) : natOfMSD (msdDigits n) = n := by
  unfold natOfMSD msdDigits
  rw [List.reverse_reverse, natDigits10_eq, Nat.ofDigits_digits]

/-- Digit values are below the base. -/
theorem msdDigits_lt (n : ℕ) : ∀ d ∈ msdDigits n, d < 10 := by
  intro d hd
  unfold msdDigits at hd
  rw [List.mem_reverse, natDigits10_eq] at hd
  exact Nat.digits_lt_base (by norm_num) hd

/-- A nonzero number has digits. -/
theorem msdDigits_ne_nil {n : ℕ} (hn : n ≠ 0) : msdDigits n ≠ [] := by
  unfold msdDigits
  rw [natDigits10_eq]
  simp [Nat.digits_ne_nil_iff_ne_zero, hn]

/-- Value of an MSD-first digit-list concatenation. -/
theorem natOfMSD_append (ds es : List ℕ) :
    natOfMSD (ds ++ es) = natOfMSD ds * 10 ^ es.length + natOfMSD es := by
  unfold natOfMSD
  rw [List.reverse_append, Nat.ofDigits_append, List.length_reverse]
  ring

/-- A zero digit list has value zero. -/
theorem ofDigits_replicate_zero (j : ℕ) : Nat.ofDigits 10 (List.replicate j 0) = 0 := by
  induction j with
  | zero => rfl
  | succ j ih =>
    rw [List.replicate_succ, Nat.ofDigits_cons, ih]

/-- Leading zeros do not change the value of an MSD-first digit list. -/
theorem natOfMSD_replicate_append (j : ℕ) (ds : List ℕ) :
    natOfMSD (List.replicate j 0 ++ ds) = natOfMSD ds := by
  rw [natOfMSD_append,
    show natOfMSD (List.replicate j 0) = 0 from by
      unfold natOfMSD
      rw [List.reverse_replicate, ofDigits_replicate_zero]]
  simp

/-- Zero padding does not change the value of an MSD-first digit list. -/
theorem natOfMSD_padDigits (k : ℕ) (ds : List ℕ) :
    natOfMSD (padDigits k ds) = natOfMSD ds := by
  unfold padDigits
  exact natOfMSD_replicate_append _ _

/-- The exponent digit group of the float printer denotes the exponent. -/
theorem natOfMSD_expDigits (a : ℕ) : natOfMSD (expDigits a) = a := by
  unfold expDigits
  by_cases h : a < 10
  · rw [if_pos h, ← List.singleton_append, natOfMSD_append,
      show natOfMSD [0] = 0 from rfl]
    simp [natOfMSD_msdDigits]
  · rw [if_neg h, natOfMSD_msdDigits]

/-- Numbers below `10 ^ k` have at most `k` digits. -/
theorem msdDigits_length_le {m k : ℕ} (h : m < 10 ^ k) : (msdDigits m).length ≤ k := by
  unfold msdDigits
  rw [List.length_reverse, natDigits10_eq]
  by_cases hm : m = 0
  · subst hm
    simp
  · by_contra hlt
    push_neg at hlt
    have h1 : 10 ^ (Nat.digits 10 m).length ≤ 10 * m :=
      Nat.base_pow_length_digits_le 10 m (by norm_num) hm
    have h2 : 10 ^ (k + 1) ≤ 10 ^ (Nat.digits 10 m).length :=
      Nat.pow_le_pow_right (by norm_num) hlt
    have h3 : 10 * 10 ^ k ≤ 10 * m := by
      calc 10 * 10 ^ k = 10 ^ (k + 1) := by ring
      _ ≤ 10 ^ (Nat.digits 10 m).length := h2
      _ ≤ 10 * m := h1
    have h4 : 10 ^ k ≤ m := Nat.le_of_mul_le_mul_left h3 (by norm_num)
    omega

/-- A number with more than `k` digits is at least `10 ^ k`. -/
theorem pow_le_of_lt_msdDigits_length {m k : ℕ} (h : k < (msdDigits m).length) :
    10 ^ k ≤ m := by
  by_contra hlt
  push_neg at hlt
  exact absurd (msdDigits_length_le hlt) (by omega)

/-- Digits of a number times a power of the base: the digits of the number
followed by trailing zeros. -/
theorem msdDigits_mul_pow (m e : ℕ) (hm : m ≠ 0) :
    msdDigits (m * 10 ^ e) = msdDigits m ++ List.replicate e 0 := by
  unfold msdDigits
  rw [natDigits10_eq, natDigits10_eq, mul_comm,
    Nat.digits_base_pow_mul (by norm_num) (Nat.pos_of_ne_zero hm),
    List.reverse_append, List.reverse_replicate]

/-- Digit characters are digits. -/
theorem isDigitC_digitChar {d : ℕ} (h : d < 10) : isDigitC (digitChar d) = true := by
  interval_cases d <;> decide

/-- Digit characters decode to their value. -/
theorem digitVal_digitChar {d : ℕ} (h : d < 10) : digitVal (digitChar d) = d := by
  interval_cases d <;> decide

/-- Digit characters are not underscores. -/
theorem digitChar_ne_underscore {d : ℕ} (h : d < 10) : (digitChar d == '_') = false := by
  interval_cases d <;> decide

/-- Digit characters are printable ASCII distinct from space, comma and the
letters of the special float words. -/
theorem digitChar_bounds {d : ℕ} (h : d < 10) :
    48 ≤ (digitChar d).toNat ∧ (digitChar d).toNat ≤ 57 := by
  interval_cases d <;> decide

/-- The digit-group scanner consumes exactly a rendered digit list when the
remainder does not continue the group. -/
theorem takeDigs_digits (ds : List ℕ) (rest : List Char) (hds : ∀ d ∈ ds, d < 10)
    (hrest : ∀ c ∈ rest.take 1, isDigitC c = false ∧ (c == '_') = false) :
    takeDigs (ds.map digitChar ++ rest) = (ds, rest) := by
  induction ds with
  | nil =>
    cases rest with
    | nil => rfl
    | cons c r =>
      unfold takeDigs
      simp only [List.map_nil, List.nil_append]
      rw [if_neg (by simp [(hrest c (by simp)).1])]
  | cons d ds' ih =>
    have hd10 : d < 10 := hds d (by simp)
    have hih : takeDigs (ds'.map digitChar ++ rest) = (ds', rest) :=
      ih (fun e he => hds e (by simp [he]))
    rw [List.map_cons, List.cons_append]
    unfold takeDigs
    rw [if_pos (isDigitC_digitChar hd10)]
    cases ds' with
    | nil =>
      cases rest with
      | nil =>
        simp only [List.map_nil, List.nil_append]
        rw [digitVal_digitChar hd10]
      | cons c1 r1 =>
        simp only [List.map_nil, List.nil_append]
        cases r1 with
        | nil =>
          dsimp only
          rw [show takeDigs [c1] = ([], [c1]) from by
            unfold takeDigs
            rw [if_neg (by simp [(hrest c1 (by simp)).1])]]
          rw [digitVal_digitChar hd10]
        | cons c2 r2 =>
          dsimp only
          rw [if_neg (by
            intro hcontra
            rw [Bool.and_eq_true] at hcontra
            exact absurd hcontra.1 (by simp [(hrest c1 (by simp)).2]))]
          rw [show takeDigs (c1 :: c2 :: r2) = ([], c1 :: c2 :: r2) from by
            unfold takeDigs
            rw [if_neg (by simp [(hrest c1 (by simp)).1])]]
          rw [digitVal_digitChar hd10]
    | cons d2 ds'' =>
      have hd2 : d2 < 10 := hds d2 (by simp)
      rw [List.map_cons, List.cons_append] at hih ⊢
      cases hx : ds''.map digitChar ++ rest with
      | nil =>
        rw [hx] at hih
        dsimp only
        rw [hih, digitVal_digitChar hd10]
      | cons c1 tl =>
        rw [hx] at hih
        dsimp only
        rw [if_neg (by
          intro hcontra
          rw [Bool.and_eq_true] at hcontra
          exact absurd hcontra.1 (by simp [digitChar_ne_underscore hd2]))]
        rw [hih, digitVal_digitChar hd10]

/-- One-step unfolding of the zero-stripping loop. -/
theorem canonMantF_succ (fuel m : ℕ) (e : ℤ) :
    canonMantF (fuel + 1) m e =
      if m = 0 then (0, 0)
      else if m % 10 = 0 then canonMantF fuel (m / 10) (e + 1) else (m, e) := rfl

/-- Zero stripping strips exactly the trailing-zero factor. -/
theorem canonMantF_pow : ∀ fuel j (m : ℕ) (e : ℤ), m ≠ 0 → ¬ 10 ∣ m → j < fuel →
    canonMantF fuel (m * 10 ^ j) (e - j) = (m, e) := by
  intro fuel
  induction fuel with
  | zero => intro j m e _ _ h; omega
  | succ f ih =>
    intro j m e hm hd hj
    rw [canonMantF_succ]
    cases j with
    | zero =>
      rw [pow_zero, mul_one, if_neg hm,
        if_neg (fun h => hd (Nat.dvd_of_mod_eq_zero h))]
      simp
    | succ j' =>
      have hmz : m * 10 ^ (j' + 1) ≠ 0 :=
        Nat.mul_ne_zero hm (pow_ne_zero _ (by norm_num))
      rw [if_neg hmz]
      have hmod : m * 10 ^ (j' + 1) % 10 = 0 := by
        rw [pow_succ, ← mul_assoc]
        exact Nat.mul_mod_left _ _
      rw [if_pos hmod]
      have hdiv : m * 10 ^ (j' + 1) / 10 = m * 10 ^ j' := by
        rw [pow_succ, ← mul_assoc, Nat.mul_div_cancel]
        norm_num
      have he : e - ((j' + 1 : ℕ) : ℤ) + 1 = e - (j' : ℤ) := by push_cast; ring
      rw [hdiv, he]
      exact ih j' m e hm hd (by omega)

/-- A canonical mantissa/exponent pair survives zero stripping unchanged. -/
theorem canonMant_pow (m : ℕ) (e : ℤ) (j : ℕ) (hm : m ≠ 0) (hd : ¬ 10 ∣ m) :
    canonMant (m * 10 ^ j) (e - j) = (m, e) := by
  unfold canonMant
  apply canonMantF_pow _ j m e hm hd
  have h1 : j < 10 ^ j := Nat.lt_pow_self (by norm_num) j
  have h2 : 10 ^ j ≤ m * 10 ^ j := Nat.le_mul_of_pos_left _ (Nat.pos_of_ne_zero hm)
  omega

/-- Zero stripping fixes a mantissa with no trailing zero. -/
theorem canonMant_id (m : ℕ) (e : ℤ) (hm : m ≠ 0) (hd : ¬ 10 ∣ m) :
    canonMant m e = (m, e) := by
  have h := canonMant_pow m e 0 hm hd
  simpa using h

/-- Zero stripping always produces a canonical pair. -/
theorem canonMantF_spec : ∀ fuel (m : ℕ) (e : ℤ), m < fuel →
    ((canonMantF fuel m e).1 = 0 → (canonMantF fuel m e).2 = 0) ∧
    ((canonMantF fuel m e).1 ≠ 0 → ¬ 10 ∣ (canonMantF fuel m e).1) := by
  intro fuel
  induction fuel with
  | zero => intro m e h; omega
  | succ f ih =>
    intro m e hm
    rw [canonMantF_succ]
    by_cases h0 : m = 0
    · rw [if_pos h0]
      exact ⟨fun _ => rfl, fun h => absurd rfl h⟩
    · rw [if_neg h0]
      by_cases hmod : m % 10 = 0
      · rw [if_pos hmod]
        apply ih
        have := Nat.div_lt_self (Nat.pos_of_ne_zero h0) (by norm_num : (1:ℕ) < 10)
        omega
      · rw [if_neg hmod]
        exact ⟨fun h => absurd h h0,
          fun _ hdvd => hmod (Nat.mod_eq_zero_of_dvd hdvd)⟩

/-- The canonicalized pair of `canonMant`. -/
theorem canonMant_spec (m : ℕ) (e : ℤ) :
    ((canonMant m e).1 = 0 → (canonMant m e).2 = 0) ∧
    ((canonMant m e).1 ≠ 0 → ¬ 10 ∣ (canonMant m e).1) :=
  canonMantF_spec (m + 1) m e (by omega)

/-- Every float the parser produces is canonical. -/
theorem pyParseCore_canon {l : List Char} {p : PyFloat}
    (h : pyParseCore l = some p) : PyCanon p := by
  unfold pyParseCore at h
  dsimp only at h
  split_ifs at h with h1 h2 h3
  · rw [Option.some_inj] at h
    subst h
    trivial
  · rw [Option.some_inj] at h
    subst h
    trivial
  · rw [Option.some_inj] at h
    subst h
    exact canonMant_spec _ _

/-- The sign parser splits an optional rendered sign from a digit-headed
body. -/
theorem parseSign_signed (neg : Bool) (body : List Char)
    (h : ∀ c ∈ body.take 1, 48 ≤ c.toNat ∧ c.toNat ≤ 57) :
    parseSign ((if neg then ['-'] else []) ++ body) = (neg, body) := by
  cases neg
  · show parseSign ([] ++ body) = (false, body)
    rw [List.nil_append]
    cases body with
    | nil => rfl
    | cons c cs =>
      have hb := h c (by simp)
      have h43 : ('+' : Char).toNat = 43 := rfl
      have h45 : ('-' : Char).toNat = 45 := rfl
      unfold parseSign
      dsimp only
      rw [if_neg (by simp [beq_false_of_toNat_ne (show c.toNat ≠ ('+' : Char).toNat by omega)]),
        if_neg (by simp [beq_false_of_toNat_ne (show c.toNat ≠ ('-' : Char).toNat by omega)])]
  · show parseSign ('-' :: body) = (true, body)
    rfl

/-- A case-insensitive word never matches at a digit. -/
theorem ciPrefix_word_digit {k0 : Char} (ks : List Char) {c : Char} (cs : List Char)
    (hk : 96 < (pyLowerChar k0).toNat) (hc : isDigitC c = true) :
    ciPrefix (k0 :: ks) (c :: cs) = none := by
  unfold ciPrefix
  rw [if_neg (by simp [ciEq_false_of_lower_digit hk hc])]

/-- The fraction parser on a period-headed remainder. -/
theorem pyFrac_dot (r : List Char) : pyFrac ('.' :: r) = takeDigs r := rfl

/-- The fraction parser without a period. -/
theorem pyFrac_not_dot {l : List Char} (h : ∀ c ∈ l.take 1, (c == '.') = false) :
    pyFrac l = ([], l) := by
  cases l with
  | nil => rfl
  | cons c r =>
    unfold pyFrac
    split
    · rename_i r2 heq
      rw [List.cons.injEq] at heq
      have hcc := h c (by simp)
      rw [heq.1] at hcc
      exact absurd hcc (by decide)
    · rfl

/-- The exponent parser without an exponent marker. -/
theorem pyExp_not_e {l : List Char}
    (h : ∀ c ∈ l.take 1, (c == 'e') = false ∧ (c == 'E') = false) :
    pyExp l = (0, l) := by
  cases l with
  | nil => rfl
  | cons c r =>
    unfold pyExp
    dsimp only
    rw [if_neg (by simp [(h c (by simp)).1, (h c (by simp)).2])]

/-- The exponent parser on a rendered positive exponent group. -/
theorem pyExp_e_plus (eds : List ℕ) (heds : ∀ d ∈ eds, d < 10) (hene : eds ≠ []) :
    pyExp ('e' :: '+' :: eds.map digitChar) = ((natOfMSD eds : ℤ), []) := by
  have htk : takeDigs (eds.map digitChar) = (eds, []) := by
    have h := takeDigs_digits eds [] heds (by simp)
    rwa [List.append_nil] at h
  unfold pyExp
  dsimp only
  rw [if_pos (by decide)]
  rw [show parseSign ('+' :: eds.map digitChar) = (false, eds.map digitChar) from rfl]
  dsimp only
  rw [htk]
  dsimp only
  rw [if_neg hene]
  rfl

/-- The exponent parser on a rendered negative exponent group. -/
theorem pyExp_e_minus (eds : List ℕ) (heds : ∀ d ∈ eds, d < 10) (hene : eds ≠ []) :
    pyExp ('e' :: '-' :: eds.map digitChar) = (-(natOfMSD eds : ℤ), []) := by
  have htk : takeDigs (eds.map digitChar) = (eds, []) := by
    have h := takeDigs_digits eds [] heds (by simp)
    rwa [List.append_nil] at h
  unfold pyExp
  dsimp only
  rw [if_pos (by decide)]
  rw [show parseSign ('-' :: eds.map digitChar) = (true, eds.map digitChar) from rfl]
  dsimp only
  rw [htk]
  dsimp only
  rw [if_neg hene]
  rfl

/-- The float parser on a rendered sign, digit group, period and fraction
group: it reads back the digits with a fraction-length exponent. -/
theorem pyParseCore_point (neg : Bool) (ids fds : List ℕ)
    (hids : ∀ d ∈ ids, d < 10) (hfds : ∀ d ∈ fds, d < 10) (hine : ids ≠ []) :
    pyParseCore ((if neg then ['-'] else []) ++
        (ids.map digitChar ++ '.' :: fds.map digitChar)) =
      some (.finite neg
        (canonMant (natOfMSD (ids ++ fds)) (0 - (fds.length : ℤ))).1
        (canonMant (natOfMSD (ids ++ fds)) (0 - (fds.length : ℤ))).2) := by
  obtain ⟨i0, irest, rfl⟩ := List.exists_cons_of_ne_nil hine
  have hi0 : i0 < 10 := hids i0 (by simp)
  have hdg := isDigitC_digitChar hi0
  rw [show ((i0 :: irest).map digitChar ++ '.' :: fds.map digitChar : List Char) =
      digitChar i0 :: (irest.map digitChar ++ '.' :: fds.map digitChar) from by simp]
  have hsign := parseSign_signed neg
    (digitChar i0 :: (irest.map digitChar ++ '.' :: fds.map digitChar))
    (by intro c hc; simp at hc; subst hc; exact digitChar_bounds hi0)
  have htake : takeDigs (digitChar i0 ::
        (irest.map digitChar ++ '.' :: fds.map digitChar)) =
      (i0 :: irest, '.' :: fds.map digitChar) := by
    have h := takeDigs_digits (i0 :: irest) ('.' :: fds.map digitChar) hids
      (by intro c hc; simp at hc; subst hc; exact ⟨by decide, by decide⟩)
    rwa [List.map_cons, List.cons_append] at h
  have hfrac : pyFrac ('.' :: fds.map digitChar) = (fds, []) := by
    rw [pyFrac_dot]
    have h := takeDigs_digits fds [] hfds (by simp)
    rwa [List.append_nil] at h
  unfold pyParseCore
  dsimp only
  rw [hsign]
  dsimp only
  rw [ciPrefix_word_digit _ _ (by decide) hdg,
      ciPrefix_word_digit _ _ (by decide) hdg,
      ciPrefix_word_digit _ _ (by decide) hdg]
  rw [if_neg (by decide), if_neg (by decide)]
  rw [htake]
  dsimp only
  rw [hfrac]
  dsimp only
  rw [show pyExp ([] : List Char) = (0, []) from rfl]
  dsimp only
  rw [if_neg (by simp)]

/-- The float parser on a rendered scientific numeral: it reads back the
mantissa digits and the signed exponent. -/
theorem pyParseCore_sci (neg esign : Bool) (d0 : ℕ) (rest eds : List ℕ)
    (hd0 : d0 < 10) (hrest : ∀ d ∈ rest, d < 10) (heds : ∀ d ∈ eds, d < 10)
    (hene : eds ≠ []) :
    pyParseCore ((if neg then ['-'] else []) ++
        ((digitChar d0 :: (if rest = [] then [] else '.' :: rest.map digitChar)) ++
          'e' :: (if esign then '-' else '+') :: eds.map digitChar)) =
      some (.finite neg
        (canonMant (natOfMSD ([d0] ++ rest))
          ((if esign then -(natOfMSD eds : ℤ) else (natOfMSD eds : ℤ)) -
            (rest.length : ℤ))).1
        (canonMant (natOfMSD ([d0] ++ rest))
          ((if esign then -(natOfMSD eds : ℤ) else (natOfMSD eds : ℤ)) -
            (rest.length : ℤ))).2) := by
  have hdg := isDigitC_digitChar hd0
  have hexp : pyExp ('e' :: (if esign then '-' else '+') :: eds.map digitChar) =
      ((if esign then -(natOfMSD eds : ℤ) else (natOfMSD eds : ℤ)), []) := by
    cases esign
    · simpa using pyExp_e_plus eds heds hene
    · simpa using pyExp_e_minus eds heds hene
  by_cases h0 : rest = []
  · subst h0
    rw [if_pos rfl]
    rw [show ((digitChar d0 :: ([] : List Char)) ++
        'e' :: (if esign then '-' else '+') :: eds.map digitChar : List Char) =
      digitChar d0 :: ('e' :: (if esign then '-' else '+') :: eds.map digitChar)
      from by simp]
    have hsign := parseSign_signed neg
      (digitChar d0 :: ('e' :: (if esign then '-' else '+') :: eds.map digitChar))
      (by intro c hc; simp at hc; subst hc; exact digitChar_bounds hd0)
    have htake : takeDigs (digitChar d0 ::
          ('e' :: (if esign then '-' else '+') :: eds.map digitChar)) =
        ([d0], 'e' :: (if esign then '-' else '+') :: eds.map digitChar) := by
      have h := takeDigs_digits [d0] ('e' :: (if esign then '-' else '+') :: eds.map digitChar)
        (by intro d hd; simp at hd; subst hd; exact hd0)
        (by intro c hc; simp at hc; subst hc; exact ⟨by decide, by decide⟩)
      rwa [List.map_cons, List.map_nil, List.cons_append, List.nil_append] at h
    have hfrac : pyFrac ('e' :: (if esign then '-' else '+') :: eds.map digitChar) =
        ([], 'e' :: (if esign then '-' else '+') :: eds.map digitChar) :=
      pyFrac_not_dot (by intro c hc; simp at hc; subst hc; decide)
    unfold pyParseCore
    dsimp only
    rw [hsign]
    dsimp only
    rw [ciPrefix_word_digit _ _ (by decide) hdg,
        ciPrefix_word_digit _ _ (by decide) hdg,
        ciPrefix_word_digit _ _ (by decide) hdg]
    rw [if_neg (by decide), if_neg (by decide)]
    rw [htake]
    dsimp only
    rw [hfrac]
    dsimp only
    rw [hexp]
    dsimp only
    rw [if_neg (by simp)]
  · rw [if_neg h0]
    rw [show ((digitChar d0 :: ('.' :: rest.map digitChar)) ++
        'e' :: (if esign then '-' else '+') :: eds.map digitChar : List Char) =
      digitChar d0 :: '.' ::
        (rest.map digitChar ++ 'e' :: (if esign then '-' else '+') :: eds.map digitChar)
      from by simp]
    have hsign := parseSign_signed neg
      (digitChar d0 :: '.' ::
        (rest.map digitChar ++ 'e' :: (if esign then '-' else '+') :: eds.map digitChar))
      (by intro c hc; simp at hc; subst hc; exact digitChar_bounds hd0)
    have htake : takeDigs (digitChar d0 :: '.' ::
          (rest.map digitChar ++ 'e' :: (if esign then '-' else '+') :: eds.map digitChar)) =
        ([d0], '.' ::
          (rest.map digitChar ++ 'e' :: (if esign then '-' else '+') :: eds.map digitChar)) := by
      have h := takeDigs_digits [d0]
        ('.' :: (rest.map digitChar ++ 'e' :: (if esign then '-' else '+') :: eds.map digitChar))
        (by intro d hd; simp at hd; subst hd; exact hd0)
        (by intro c hc; simp at hc; subst hc; exact ⟨by decide, by decide⟩)
      rwa [List.map_cons, List.map_nil, List.cons_append, List.nil_append] at h
    have hfrac : pyFrac ('.' ::
          (rest.map digitChar ++ 'e' :: (if esign then '-' else '+') :: eds.map digitChar)) =
        (rest, 'e' :: (if esign then '-' else '+') :: eds.map digitChar) := by
      rw [pyFrac_dot]
      exact takeDigs_digits rest ('e' :: (if esign then '-' else '+') :: eds.map digitChar)
        hrest (by intro c hc; simp at hc; subst hc; exact ⟨by decide, by decide⟩)
    unfold pyParseCore
    dsimp only
    rw [hsign]
    dsimp only
    rw [ciPrefix_word_digit _ _ (by decide) hdg,
        ciPrefix_word_digit _ _ (by decide) hdg,
        ciPrefix_word_digit _ _ (by decide) hdg]
    rw [if_neg (by decide), if_neg (by decide)]
    rw [htake]
    dsimp only
    rw [hfrac]
    dsimp only
    rw [hexp]
    dsimp only
    rw [if_neg (by simp)]

/-- Scientific round trip, negative exponent sign. -/
theorem pyParseCore_sci_minus (neg : Bool) (d0 : ℕ) (rest eds : List ℕ)
    (hd0 : d0 < 10) (hrest : ∀ d ∈ rest, d < 10) (heds : ∀ d ∈ eds, d < 10)
    (hene : eds ≠ []) :
    pyParseCore ((if neg then ['-'] else []) ++
        ((digitChar d0 :: (if rest = [] then [] else '.' :: rest.map digitChar)) ++
          'e' :: '-' :: eds.map digitChar)) =
      some (.finite neg
        (canonMant (natOfMSD ([d0] ++ rest))
          (-(natOfMSD eds : ℤ) - (rest.length : ℤ))).1
        (canonMant (natOfMSD ([d0] ++ rest))
          (-(natOfMSD eds : ℤ) - (rest.length : ℤ))).2) := by
  have h := pyParseCore_sci neg true d0 rest eds hd0 hrest heds hene
  simpa using h

/-- Scientific round trip, positive exponent sign. -/
theorem pyParseCore_sci_plus (neg : Bool) (d0 : ℕ) (rest eds : List ℕ)
    (hd0 : d0 < 10) (hrest : ∀ d ∈ rest, d < 10) (heds : ∀ d ∈ eds, d < 10)
    (hene : eds ≠ []) :
    pyParseCore ((if neg then ['-'] else []) ++
        ((digitChar d0 :: (if rest = [] then [] else '.' :: rest.map digitChar)) ++
          'e' :: '+' :: eds.map digitChar)) =
      some (.finite neg
        (canonMant (natOfMSD ([d0] ++ rest))
          ((natOfMSD eds : ℤ) - (rest.length : ℤ))).1
        (canonMant (natOfMSD ([d0] ++ rest))
          ((natOfMSD eds : ℤ) - (rest.length : ℤ))).2) := by
  have h := pyParseCore_sci neg false d0 rest eds hd0 hrest heds hene
  simpa using h

/-- Exponent digit groups denote digits. -/
theorem expDigits_lt (a : ℕ) : ∀ d ∈ expDigits a, d < 10 := by
  intro d hd
  unfold expDigits at hd
  by_cases h : a < 10
  · rw [if_pos h] at hd
    rcases List.mem_cons.mp hd with rfl | hd2
    · omega
    · exact msdDigits_lt a d hd2
  · rw [if_neg h] at hd
    exact msdDigits_lt a d hd

/-- Exponent digit groups are never empty. -/
theorem expDigits_ne_nil (a : ℕ) : expDigits a ≠ [] := by
  unfold expDigits
  by_cases h : a < 10
  · rw [if_pos h]
    simp
  · rw [if_neg h]
    exact msdDigits_ne_nil (by omega)

/-- Padded digit groups denote digits. -/
theorem padDigits_lt {k : ℕ} {ds : List ℕ} (h : ∀ d ∈ ds, d < 10) :
    ∀ d ∈ padDigits k ds, d < 10 := by
  intro d hd
  unfold padDigits at hd
  rw [List.mem_append] at hd
  rcases hd with hd | hd
  · rw [List.eq_of_mem_replicate hd]
    omega
  · exact h d hd

/-- Length of a padded digit group. -/
theorem padDigits_length {k : ℕ} {ds : List ℕ} (h : ds.length ≤ k) :
    (padDigits k ds).length = k := by
  unfold padDigits
  rw [List.length_append, List.length_replicate]
  omega

/-- Full round trip: parsing the printed form of a canonical float returns
the float. -/
theorem pyParseCore_reprFloat (p : PyFloat) (hc : PyCanon p) :
    pyParseCore (reprFloat p) = some p := by
  cases p with
  | nan => decide
  | infinite neg => cases neg <;> decide
  | finite neg m e =>
    have hc' : (m = 0 → e = 0) ∧ (m ≠ 0 → ¬ (10 ∣ m)) := hc
    by_cases hm : m = 0
    · have he := hc'.1 hm
      subst hm
      subst he
      cases neg <;> decide
    · have hnd := hc'.2 hm
      unfold reprFloat
      dsimp only
      rw [if_neg hm]
      by_cases hrange : -4 ≤ e + ((msdDigits m).length : ℤ) - 1 ∧
          e + ((msdDigits m).length : ℤ) - 1 < 16
      · rw [if_pos hrange]
        by_cases hepos : 0 ≤ e
        · rw [if_pos hepos]
          have hmz : m * 10 ^ e.toNat ≠ 0 :=
            Nat.mul_ne_zero hm (pow_ne_zero _ (by norm_num))
          rw [show natStr (m * 10 ^ e.toNat) =
              (msdDigits (m * 10 ^ e.toNat)).map digitChar from by
            unfold natStr
            rw [if_neg hmz]]
          rw [show (['.', '0'] : List Char) = '.' :: ([0] : List ℕ).map digitChar
            from by decide]
          rw [pyParseCore_point neg (msdDigits (m * 10 ^ e.toNat)) [0]
            (msdDigits_lt _) (by intro d hd; simp at hd; subst hd; omega)
            (msdDigits_ne_nil hmz)]
          rw [show natOfMSD (msdDigits (m * 10 ^ e.toNat) ++ [0]) =
              m * 10 ^ (e.toNat + 1) from by
            rw [natOfMSD_append, natOfMSD_msdDigits,
              show natOfMSD [0] = 0 from rfl, List.length_singleton]
            ring]
          rw [show (0 : ℤ) - ((([0] : List ℕ).length : ℕ) : ℤ) =
              e - ((e.toNat + 1 : ℕ) : ℤ) from by
            have ht : ((e.toNat : ℕ) : ℤ) = e := Int.toNat_of_nonneg hepos
            simp only [List.length_singleton]
            push_cast
            omega]
          rw [canonMant_pow m e (e.toNat + 1) hm hnd]
        · rw [if_neg hepos]
          have hneg : e < 0 := by omega
          have htn : (((-e).toNat : ℕ) : ℤ) = -e := Int.toNat_of_nonneg (by omega)
          by_cases hk : (-e).toNat < (msdDigits m).length
          · rw [if_pos hk]
            have hdvpos : m / 10 ^ (-e).toNat ≠ 0 := by
              have h1 := pow_le_of_lt_msdDigits_length hk
              have h2 := Nat.div_pos h1 (Nat.pos_pow_of_pos _ (by norm_num))
              omega
            have hmodlt : m % 10 ^ (-e).toNat < 10 ^ (-e).toNat :=
              Nat.mod_lt _ (Nat.pos_pow_of_pos _ (by norm_num))
            have hmodlen : (msdDigits (m % 10 ^ (-e).toNat)).length ≤ (-e).toNat :=
              msdDigits_length_le hmodlt
            rw [pyParseCore_point neg (msdDigits (m / 10 ^ (-e).toNat))
              (padDigits (-e).toNat (msdDigits (m % 10 ^ (-e).toNat)))
              (msdDigits_lt _) (padDigits_lt (msdDigits_lt _))
              (msdDigits_ne_nil hdvpos)]
            rw [show natOfMSD (msdDigits (m / 10 ^ (-e).toNat) ++
                padDigits (-e).toNat (msdDigits (m % 10 ^ (-e).toNat))) = m from by
              rw [natOfMSD_append, natOfMSD_padDigits, natOfMSD_msdDigits,
                natOfMSD_msdDigits, padDigits_length hmodlen,
                mul_comm (m / 10 ^ (-e).toNat) (10 ^ (-e).toNat)]
              exact Nat.div_add_mod m (10 ^ (-e).toNat)]
            rw [padDigits_length hmodlen]
            rw [show (0 : ℤ) - (((-e).toNat : ℕ) : ℤ) = e from by omega]
            rw [canonMant_id m e hm hnd]
          · rw [if_neg hk]
            have hnd_le : (msdDigits m).length ≤ (-e).toNat := by omega
            rw [show ('0' :: '.' ::
                List.replicate ((-e).toNat - (msdDigits m).length) '0' ++
                  (msdDigits m).map digitChar : List Char) =
              ([0] : List ℕ).map digitChar ++ '.' ::
                ((List.replicate ((-e).toNat - (msdDigits m).length) 0 ++
                  msdDigits m).map digitChar) from by
              have h0 : digitChar 0 = '0' := rfl
              simp [List.map_append, List.map_replicate, h0]]
            rw [pyParseCore_point neg [0]
              (List.replicate ((-e).toNat - (msdDigits m).length) 0 ++ msdDigits m)
              (by intro d hd; simp at hd; subst hd; omega)
              (by
                intro d hd
                rw [List.mem_append] at hd
                rcases hd with hd | hd
                · rw [List.eq_of_mem_replicate hd]
                  omega
                · exact msdDigits_lt m d hd)
              (by simp)]
            rw [show natOfMSD (([0] : List ℕ) ++
                (List.replicate ((-e).toNat - (msdDigits m).length) 0 ++ msdDigits m)) =
                m from by
              rw [natOfMSD_append, natOfMSD_replicate_append, natOfMSD_msdDigits,
                show natOfMSD [0] = 0 from rfl]
              ring]
            have hlen3 : (List.replicate ((-e).toNat - (msdDigits m).length) 0 ++
                msdDigits m).length = (-e).toNat := by
              rw [List.length_append, List.length_replicate]
              omega
            rw [hlen3]
            rw [show (0 : ℤ) - (((-e).toNat : ℕ) : ℤ) = e from by omega]
            rw [canonMant_id m e hm hnd]
      · rw [if_neg hrange]
        obtain ⟨d0, rest, hmsd⟩ := List.exists_cons_of_ne_nil (msdDigits_ne_nil hm)
        rw [hmsd]
        dsimp only
        have hd0' : d0 < 10 := msdDigits_lt m d0 (by rw [hmsd]; simp)
        have hrest' : ∀ d ∈ rest, d < 10 := fun d hd =>
          msdDigits_lt m d (by rw [hmsd]; simp [hd])
        by_cases hneg : e + ((d0 :: rest).length : ℤ) - 1 < 0
        · rw [if_pos hneg]
          rw [pyParseCore_sci_minus neg d0 rest
            (expDigits (e + ((d0 :: rest).length : ℤ) - 1).natAbs)
            hd0' hrest' (expDigits_lt _) (expDigits_ne_nil _)]
          rw [natOfMSD_expDigits]
          rw [show (([d0] : List ℕ) ++ rest) = msdDigits m from by
            rw [hmsd, List.singleton_append]]
          rw [natOfMSD_msdDigits]
          rw [show -((((e + ((d0 :: rest).length : ℤ) - 1).natAbs : ℕ) : ℤ)) -
              ((rest.length : ℕ) : ℤ) = e from by
            have hlen2 : ((d0 :: rest).length : ℤ) = (rest.length : ℤ) + 1 := by simp
            omega]
          rw [canonMant_id m e hm hnd]
        · rw [if_neg hneg]
          rw [pyParseCore_sci_plus neg d0 rest
            (expDigits (e + ((d0 :: rest).length : ℤ) - 1).natAbs)
            hd0' hrest' (expDigits_lt _) (expDigits_ne_nil _)]
          rw [natOfMSD_expDigits]
          rw [show (([d0] : List ℕ) ++ rest) = msdDigits m from by
            rw [hmsd, List.singleton_append]]
          rw [natOfMSD_msdDigits]
          rw [show ((((e + ((d0 :: rest).length : ℤ) - 1).natAbs : ℕ) : ℤ)) -
              ((rest.length : ℕ) : ℤ) = e from by
            have hlen2 : ((d0 :: rest).length : ℤ) = (rest.length : ℤ) + 1 := by simp
            omega]
          rw [canonMant_id m e hm hnd]

/-- Every character the float printer emits is printable ASCII other than
the comma (code 44); in particular no whitespace and no comma. -/
theorem reprFloat_chars (p : PyFloat) :
    ∀ c ∈ reprFloat p, 33 ≤ c.toNat ∧ c.toNat ≤ 126 ∧ c.toNat ≠ 44 := by
  intro c hc
  cases p with
  | nan =>
    simp [reprFloat] at hc
    rcases hc with rfl | rfl | rfl <;> decide
  | infinite neg =>
    cases neg <;> simp [reprFloat] at hc <;>
      rcases hc with rfl | rfl | rfl | rfl <;> decide
  | finite neg m e =>
    unfold reprFloat at hc
    rw [List.mem_append] at hc
    rcases hc with hc | hc
    · cases neg
      · simp at hc
      · simp at hc
        subst hc
        decide
    · by_cases hm : m = 0
      · rw [if_pos hm] at hc
        simp at hc
        rcases hc with rfl | rfl | rfl <;> decide
      · rw [if_neg hm] at hc
        dsimp only at hc
        split_ifs at hc with h1 h2 h3
        · rw [List.mem_append] at hc
          rcases hc with hc | hc
          · unfold natStr at hc
            rw [if_neg (Nat.mul_ne_zero hm (pow_ne_zero _ (by norm_num)))] at hc
            rw [List.mem_map] at hc
            obtain ⟨d, hd, rfl⟩ := hc
            have hb := digitChar_bounds (msdDigits_lt _ d hd)
            omega
          · simp at hc
            rcases hc with rfl | rfl <;> decide
        · rw [List.mem_append] at hc
          rcases hc with hc | hc
          · rw [List.mem_map] at hc
            obtain ⟨d, hd, rfl⟩ := hc
            have hb := digitChar_bounds (msdDigits_lt _ d hd)
            omega
          · rcases List.mem_cons.mp hc with rfl | hc2
            · decide
            · rw [List.mem_map] at hc2
              obtain ⟨d, hd, rfl⟩ := hc2
              have hb := digitChar_bounds (padDigits_lt (msdDigits_lt _) d hd)
              omega
        · simp only [List.cons_append, List.mem_cons, List.mem_append] at hc
          rcases hc with rfl | rfl | hc | hc
          · decide
          · decide
          · rw [List.eq_of_mem_replicate hc]
            decide
          · rw [List.mem_map] at hc
            obtain ⟨d, hd, rfl⟩ := hc
            have hb := digitChar_bounds (msdDigits_lt _ d hd)
            omega
        · rw [List.mem_append] at hc
          rcases hc with hc | hc
          · obtain ⟨d0, rest, hmsd⟩ := List.exists_cons_of_ne_nil (msdDigits_ne_nil hm)
            rw [hmsd] at hc
            dsimp only at hc
            rcases List.mem_cons.mp hc with rfl | hc2
            · have hb := digitChar_bounds (msdDigits_lt m d0 (by rw [hmsd]; simp))
              omega
            · by_cases h0 : rest = []
              · rw [if_pos h0] at hc2
                simp at hc2
              · rw [if_neg h0] at hc2
                rcases List.mem_cons.mp hc2 with rfl | hc3
                · decide
                · rw [List.mem_map] at hc3
                  obtain ⟨d, hd, rfl⟩ := hc3
                  have hb := digitChar_bounds
                    (msdDigits_lt m d (by rw [hmsd]; simp [hd]))
                  omega
          · rcases List.mem_cons.mp hc with rfl | hc2
            · decide
            · rcases List.mem_cons.mp hc2 with rfl | hc3
              · decide
              · rw [List.mem_map] at hc3
                obtain ⟨d, hd, rfl⟩ := hc3
                have hb := digitChar_bounds (expDigits_lt _ d hd)
                omega
        · rw [List.mem_append] at hc
          rcases hc with hc | hc
          · obtain ⟨d0, rest, hmsd⟩ := List.exists_cons_of_ne_nil (msdDigits_ne_nil hm)
            rw [hmsd] at hc
            dsimp only at hc
            rcases List.mem_cons.mp hc with rfl | hc2
            · have hb := digitChar_bounds (msdDigits_lt m d0 (by rw [hmsd]; simp))
              omega
            · by_cases h0 : rest = []
              · rw [if_pos h0] at hc2
                simp at hc2
              · rw [if_neg h0] at hc2
                rcases List.mem_cons.mp hc2 with rfl | hc3
                · decide
                · rw [List.mem_map] at hc3
                  obtain ⟨d, hd, rfl⟩ := hc3
                  have hb := digitChar_bounds
                    (msdDigits_lt m d (by rw [hmsd]; simp [hd]))
                  omega
          · rcases List.mem_cons.mp hc with rfl | hc2
            · decide
            · rcases List.mem_cons.mp hc2 with rfl | hc3
              · decide
              · rw [List.mem_map] at hc3
                obtain ⟨d, hd, rfl⟩ := hc3
                have hb := digitChar_bounds (expDigits_lt _ d hd)
                omega

/-- The float printer emits no whitespace. -/
theorem reprFloat_no_ws (p : PyFloat) : ∀ c ∈ reprFloat p, pyWS c = false :=
  fun c hc => pyWS_false_of_printable (reprFloat_chars p c hc).1
    (reprFloat_chars p c hc).2.1

/-- The float printer emits no space and no comma. -/
theorem reprFloat_not_space_comma (p : PyFloat) :
    ∀ c ∈ reprFloat p, (c == ' ') = false ∧ (c == ',') = false := by
  intro c hc
  have hb := reprFloat_chars p c hc
  have h32 : (' ' : Char).toNat = 32 := rfl
  have h44 : (',' : Char).toNat = 44 := rfl
  exact ⟨beq_false_of_toNat_ne (by omega), beq_false_of_toNat_ne (by omega)⟩

/-- Renormalizing the output of the number normalizer (as the dispatcher
does, with an intervening strip) returns it unchanged. -/
theorem normNumL_strip_idem (w : List Char) (hw : stripWS w = w) :
    normNumL (stripWS (normNumL w)) = normNumL w := by
  cases hp : pyParseFloat ((w.filter fun d => !(d == ' ')).map fun d =>
      if d == ',' then '.' else d) with
  | some p =>
    have hout : normNumL w = reprFloat p := by
      unfold normNumL
      dsimp only
      rw [strReplace_single_del, strReplace_single_map, hp]
    rw [hout]
    have hcanon : PyCanon p := by
      unfold pyParseFloat at hp
      exact pyParseCore_canon hp
    have hs : stripWS (reprFloat p) = reprFloat p :=
      stripWS_id_of_noWS (reprFloat_no_ws p)
    rw [hs]
    unfold normNumL
    dsimp only
    rw [strReplace_single_del, strReplace_single_map,
      transform_id (reprFloat_not_space_comma p)]
    rw [show pyParseFloat (reprFloat p) = some p from by
      unfold pyParseFloat
      rw [hs]
      exact pyParseCore_reprFloat p hcanon]
  | none =>
    have hout : normNumL w = (w.filter fun d => !(d == ' ')).map fun d =>
        if d == ',' then '.' else d := by
      unfold normNumL
      dsimp only
      rw [strReplace_single_del, strReplace_single_map, hp]
    rw [hout]
    have hhead : ∀ c ∈ ((w.filter fun d => !(d == ' ')).map fun d =>
        if d == ',' then '.' else d).take 1, pyWS c = false := by
      apply transform_take1
      rw [← hw]
      exact stripWS_take1 w
    have hrev : ∀ c ∈ ((w.filter fun d => !(d == ' ')).map fun d =>
        if d == ',' then '.' else d).reverse.take 1, pyWS c = false := by
      rw [show ((w.filter fun d => !(d == ' ')).map fun d =>
          if d == ',' then '.' else d).reverse =
        ((w.reverse.filter fun d => !(d == ' ')).map fun d =>
          if d == ',' then '.' else d) from by
        rw [← List.map_reverse, ← List.filter_reverse]]
      apply transform_take1
      have h := stripWS_reverse_take1 w
      rw [hw] at h
      exact h
    have hs : stripWS ((w.filter fun d => !(d == ' ')).map fun d =>
        if d == ',' then '.' else d) = (w.filter fun d => !(d == ' ')).map fun d =>
        if d == ',' then '.' else d := stripWS_id_of_edge hhead hrev
    rw [hs]
    unfold normNumL
    dsimp only
    rw [strReplace_single_del, strReplace_single_map,
      transform_id transform_chars, hp]

/-- The number branch of the dispatcher. -/
theorem normEntL_number (u : List Char) : normEntL Tag.number u = normNumL (stripWS u) := rfl

/-- The percent branch of the dispatcher. -/
theorem normEntL_percent (u : List Char) : normEntL Tag.percent u = normNumL (stripWS u) := rfl

/-- The range branch of the dispatcher. -/
theorem normEntL_range (u : List Char) : normEntL Tag.range u = stripWS (stripWS u) := rfl

/-- A suffix of a concatenation is a suffix of the right part or carries a
non-empty suffix of the left part. -/
theorem suffix_append_cases {t a b : List Char} (h : t <:+ a ++ b) :
    t <:+ b ∨ ∃ t1, t1 ≠ [] ∧ t1 <:+ a ∧ t = t1 ++ b := by
  by_cases hle : t.length ≤ b.length
  · exact Or.inl (List.suffix_of_suffix_length_le h (List.suffix_append a b) hle)
  · right
    push_neg at hle
    have hbt : b <:+ t := List.suffix_of_suffix_length_le (List.suffix_append a b) h
      (by omega)
    obtain ⟨t1, rfl⟩ := hbt
    obtain ⟨s, hs⟩ := h
    rw [← List.append_assoc] at hs
    have hsa : s ++ t1 = a := List.append_cancel_right hs
    refine ⟨t1, ?_, ⟨s, hsa⟩, rfl⟩
    intro hnil
    rw [hnil] at hle
    simp at hle

/-- The drop past the satisfying prefix is the `dropWhile`. -/
theorem drop_length_takeWhile (p : Char → Bool) (l : List Char) :
    l.drop (l.takeWhile p).length = l.dropWhile p := by
  induction l with
  | nil => rfl
  | cons c rest ih =>
    rw [List.takeWhile_cons, List.dropWhile_cons]
    by_cases hc : p c = true
    · rw [if_pos hc, if_pos hc]
      simp only [List.length_cons, List.drop_succ_cons]
      exact ih
    · rw [if_neg hc, if_neg hc]
      rfl

/-- Specification of a successful greedy class run. -/
theorem takeClass1_some {p : Char → Bool} {l run rest : List Char}
    (h : takeClass1 p l = some (run, rest)) :
    run ≠ [] ∧ (∀ c ∈ run, p c = true) ∧ run ++ rest = l := by
  unfold takeClass1 at h
  dsimp only at h
  by_cases hr : l.takeWhile p = []
  · rw [if_pos hr] at h
    exact absurd h (by simp)
  · rw [if_neg hr] at h
    rw [Option.some_inj, Prod.mk.injEq] at h
    obtain ⟨h1, h2⟩ := h
    refine ⟨by rw [← h1]; exact hr, ?_, ?_⟩
    · intro c hc
      rw [← h1] at hc
      exact List.mem_takeWhile_imp hc
    · rw [← h1, ← h2, drop_length_takeWhile, List.takeWhile_append_dropWhile]

/-- Letters are not digits. -/
theorem isDigitC_false_of_alpha {c : Char} (h : isAsciiAlpha c = true) :
    isDigitC c = false := by
  unfold isAsciiAlpha at h
  simp only [Bool.or_eq_true, Bool.and_eq_true, decide_eq_true_eq] at h
  cases hd : isDigitC c with
  | false => rfl
  | true =>
    have := digit_bounds hd
    rcases h with ⟨h1, h2⟩ | ⟨h1, h2⟩ <;> omega

/-- The digit run fails on a non-digit head. -/
theorem digitRun_none {c : Char} (rest : List Char) (h : isDigitC c = false) :
    digitRun (c :: rest) = none := by
  unfold digitRun takeClass1
  dsimp only
  have htw : (c :: rest).takeWhile isDigitC = [] := by
    rw [List.takeWhile_cons, h]
    rfl
  rw [htw]
  rfl

/-- The optional parenthesised group is empty or a parenthesised digit run. -/
theorem artParen_shape (r2 : List Char) :
    artParen r2 = [] ∨ ∃ ps, ps ≠ [] ∧ (∀ c ∈ ps, isDigitC c = true) ∧
      artParen r2 = '(' :: ps ++ [')'] := by
  unfold artParen
  split
  · rename_i r3
    split
    · rename_i ps w heq2
      unfold digitRun at heq2
      obtain ⟨hne, hdig, -⟩ := takeClass1_some heq2
      exact Or.inr ⟨ps, hne, hdig, rfl⟩
    · exact Or.inl rfl
  · exact Or.inl rfl

/-- The optional parenthesised group re-parses to itself. -/
theorem artParen_self {pp : List Char}
    (h : pp = [] ∨ ∃ ps, ps ≠ [] ∧ (∀ c ∈ ps, isDigitC c = true) ∧
      pp = '(' :: ps ++ [')']) : artParen pp = pp := by
  rcases h with rfl | ⟨ps, hne, hdig, rfl⟩
  · rfl
  · rw [show ('(' :: ps ++ [')'] : List Char) = '(' :: (ps ++ [')']) from by simp]
    unfold artParen
    split
    · rename_i r3 heq
      rw [List.cons.injEq] at heq
      rw [← heq.2]
      have hdr : digitRun (ps ++ [')']) = some (ps, [')']) := by
        unfold digitRun
        exact takeClass1_append hne hdig (by intro c hc; simp at hc; subst hc; decide)
      rw [hdr]
      simp
    · rename_i hne2
      exact absurd rfl (hne2 _)

/-- Every article-number match has the digit/letter/parenthesis shape. -/
theorem artNumAt_shape {l m : List Char} (h : artNumAt l = some m) : ArtShape m := by
  unfold artNumAt at h
  cases hdr : digitRun l with
  | none =>
    rw [hdr] at h
    exact absurd h (by simp)
  | some p =>
    obtain ⟨ds, r1⟩ := p
    rw [hdr] at h
    dsimp only at h
    unfold digitRun at hdr
    obtain ⟨hne, hdig, -⟩ := takeClass1_some hdr
    cases r1 with
    | nil =>
      dsimp only at h
      rw [Option.some_inj] at h
      exact ⟨ds, [], artParen [], h.symm, hne, hdig, Or.inl rfl, artParen_shape []⟩
    | cons c r =>
      dsimp only at h
      by_cases hca : isAsciiAlpha c = true
      · rw [if_pos hca] at h
        dsimp only at h
        rw [Option.some_inj] at h
        exact ⟨ds, [c], artParen r, h.symm, hne, hdig, Or.inr ⟨c, rfl, hca⟩,
          artParen_shape r⟩
      · rw [if_neg hca] at h
        dsimp only at h
        rw [Option.some_inj] at h
        exact ⟨ds, [], artParen (c :: r), h.symm, hne, hdig, Or.inl rfl,
          artParen_shape (c :: r)⟩

/-- The article-number pattern matches its own previous match exactly. -/
theorem artNumAt_self {m : List Char} (hs : ArtShape m) : artNumAt m = some m := by
  obtain ⟨ds, lp, pp, hm, hne, hdig, hlp, hpp⟩ := hs
  have hstop : ∀ c ∈ (lp ++ pp).take 1, isDigitC c = false := by
    intro c hc
    rcases hlp with rfl | ⟨c2, rfl, hca⟩
    · rw [List.nil_append] at hc
      rcases hpp with rfl | ⟨ps, hpsne, hpsd, rfl⟩
      · simp at hc
      · rw [show ('(' :: ps ++ [')'] : List Char) = '(' :: (ps ++ [')'])
          from by simp] at hc
        simp at hc
        subst hc
        decide
    · simp at hc
      subst hc
      exact isDigitC_false_of_alpha hca
  have hdr : digitRun m = some (ds, lp ++ pp) := by
    rw [hm, List.append_assoc]
    unfold digitRun
    exact takeClass1_append hne hdig hstop
  unfold artNumAt
  rw [hdr]
  dsimp only
  rcases hlp with rfl | ⟨c2, rfl, hca⟩
  · rw [List.nil_append]
    rcases hpp with rfl | ⟨ps, hpsne, hpsd, hppe⟩
    · rw [hm]
      rfl
    · rw [hppe, show ('(' :: ps ++ [')'] : List Char) = '(' :: (ps ++ [')'])
        from by simp]
      dsimp only
      rw [if_neg (by decide)]
      dsimp only
      rw [show artParen ('(' :: (ps ++ [')'])) = '(' :: (ps ++ [')']) from by
        rw [show ('(' :: (ps ++ [')']) : List Char) = '(' :: ps ++ [')']
          from by simp]
        exact artParen_self (Or.inr ⟨ps, hpsne, hpsd, rfl⟩)]
      rw [hm, hppe]
      simp
  · rw [List.singleton_append]
    dsimp only
    rw [if_pos hca]
    dsimp only
    rw [artParen_self hpp, hm]

/-- The article-number pattern fails at a non-digit. -/
theorem artNumAt_none_of_head {c : Char} (rest : List Char)
    (h : isDigitC c = false) : artNumAt (c :: rest) = none := by
  unfold artNumAt
  rw [digitRun_none rest h]

/-- Every article-number search result has the match shape. -/
theorem artNumSearch_shape {l m : List Char} (h : artNumSearch l = some m) :
    ArtShape m := by
  induction l with
  | nil => exact artNumAt_shape h
  | cons c rest ih =>
    rw [artNumSearch] at h
    cases ha : artNumAt (c :: rest) with
    | some x =>
      rw [ha, Option.some_orElse, Option.some_inj] at h
      subst h
      exact artNumAt_shape ha
    | none =>
      rw [ha, Option.none_orElse] at h
      exact ih h

/-- Searching `Art ` followed by a previous match finds the match again. -/
theorem artNumSearch_art {m : List Char} (hs : ArtShape m) :
    artNumSearch (String.data "Art " ++ m) = some m := by
  have hself := artNumAt_self hs
  obtain ⟨ds, lp, pp, hm, hne, hdig, hlp, hpp⟩ := hs
  obtain ⟨d0, ds', hds⟩ := List.exists_cons_of_ne_nil hne
  have hmc : m = d0 :: (ds' ++ lp ++ pp) := by
    rw [hm, hds]
    simp
  rw [show String.data "Art " ++ m = 'A' :: 'r' :: 't' :: ' ' :: m from rfl]
  rw [artNumSearch, artNumAt_none_of_head _ (by decide), Option.none_orElse]
  rw [artNumSearch, artNumAt_none_of_head _ (by decide), Option.none_orElse]
  rw [artNumSearch, artNumAt_none_of_head _ (by decide), Option.none_orElse]
  rw [artNumSearch, artNumAt_none_of_head _ (by decide), Option.none_orElse]
  rw [hmc, artNumSearch, ← hmc, hself, Option.some_orElse]

/-- Case-insensitive equality fails when the lowered code points differ. -/
theorem ciEq_false_of_toNat_ne {k c : Char}
    (h : (pyLowerChar k).toNat ≠ (pyLowerChar c).toNat) : ciEq k c = false := by
  unfold ciEq
  exact beq_false_of_toNat_ne h

/-- No article keyword starts at a character matching neither `a` nor `p`. -/
theorem artKwAt_none_head {c0 : Char} (rest : List Char)
    (hA : ciEq 'A' c0 = false) (hp : ciEq 'p' c0 = false) :
    artKwAt (c0 :: rest) = none := by
  have h1 : ∀ ks, ciPrefix ('A' :: ks) (c0 :: rest) = none := by
    intro ks
    unfold ciPrefix
    rw [hA]
    rfl
  have h2 : ∀ ks, ciPrefix ('p' :: ks) (c0 :: rest) = none := by
    intro ks
    unfold ciPrefix
    rw [hp]
    rfl
  unfold artKwAt
  rw [show String.data "Article" = 'A' :: String.data "rticle" from rfl,
      show String.data "Artikel" = 'A' :: String.data "rtikel" from rfl,
      show String.data "Art" = 'A' :: String.data "rt" from rfl,
      show String.data "pant" = 'p' :: String.data "ant" from rfl,
      show String.data "panta" = 'p' :: String.data "anta" from rfl,
      show String.data "pantā" = 'p' :: String.data "antā" from rfl,
      show String.data "pantu" = 'p' :: String.data "antu" from rfl]
  rw [h1, h1, h1, h2, h2, h2, h2]
  rfl

/-- No article keyword continues past a second character matching neither
`r` nor `a`. -/
theorem artKwAt_none_second {c0 : Char} {rest : List Char}
    (h : ∀ c1 ∈ rest.take 1, ciEq 'r' c1 = false ∧ ciEq 'a' c1 = false) :
    artKwAt (c0 :: rest) = none := by
  have hAr : ∀ ks, ciPrefix ('A' :: 'r' :: ks) (c0 :: rest) = none := by
    intro ks
    unfold ciPrefix
    by_cases hA : ciEq 'A' c0 = true
    · rw [if_pos hA]
      cases rest with
      | nil => rfl
      | cons c1 cs =>
        unfold ciPrefix
        rw [(h c1 (by simp)).1]
        rfl
    · rw [if_neg hA]
  have hpa : ∀ ks, ciPrefix ('p' :: 'a' :: ks) (c0 :: rest) = none := by
    intro ks
    unfold ciPrefix
    by_cases hP : ciEq 'p' c0 = true
    · rw [if_pos hP]
      cases rest with
      | nil => rfl
      | cons c1 cs =>
        unfold ciPrefix
        rw [(h c1 (by simp)).2]
        rfl
    · rw [if_neg hP]
  unfold artKwAt
  rw [show String.data "Article" = 'A' :: 'r' :: String.data "ticle" from rfl,
      show String.data "Artikel" = 'A' :: 'r' :: String.data "tikel" from rfl,
      show String.data "Art" = 'A' :: 'r' :: String.data "t" from rfl,
      show String.data "pant" = 'p' :: 'a' :: String.data "nt" from rfl,
      show String.data "panta" = 'p' :: 'a' :: String.data "nta" from rfl,
      show String.data "pantā" = 'p' :: 'a' :: String.data "ntā" from rfl,
      show String.data "pantu" = 'p' :: 'a' :: String.data "ntu" from rfl]
  rw [hAr, hAr, hAr, hpa, hpa, hpa, hpa]
  rfl

/-- The article keyword substitution matches `Art` at an `Art ` prefix and
leaves the following space in the remainder. -/
theorem artKwAt_art (m : List Char) :
    artKwAt ('A' :: 'r' :: 't' :: ' ' :: m) = some (' ' :: m) := rfl

/-- One-step unfolding of the keyword-substitution scanner. -/
theorem artKwSubF_succ (f : ℕ) (l : List Char) :
    artKwSubF (f + 1) l =
      match l with
      | [] => []
      | c :: rest =>
        match artKwAt (c :: rest) with
        | some r => String.data "Art" ++ artKwSubF f r
        | none => c :: artKwSubF f rest := rfl

/-- The keyword-substitution scanner fixes a text none of whose suffixes
start a keyword match. -/
theorem artKwSubF_id : ∀ fuel (l : List Char),
    (∀ t, t <:+ l → t ≠ [] → artKwAt t = none) → artKwSubF fuel l = l := by
  intro fuel
  induction fuel with
  | zero => intro l h; rfl
  | succ f ih =>
    intro l h
    cases l with
    | nil => rfl
    | cons c rest =>
      rw [artKwSubF_succ]
      dsimp only
      rw [h (c :: rest) (List.suffix_refl _) (by simp)]
      dsimp only
      rw [ih rest fun t ht hne => h t (ht.trans (List.suffix_cons c rest)) hne]

/-- No suffix of a space-prefixed article-number match starts an article
keyword. -/
theorem artShape_suffix_none {m : List Char} (hs : ArtShape m) :
    ∀ t, t <:+ (' ' :: m) → t ≠ [] → artKwAt t = none := by
  obtain ⟨ds, lp, pp, hm, hne, hdig, hlp, hpp⟩ := hs
  intro t ht htne
  rcases List.suffix_cons_iff.mp ht with rfl | htm
  · exact artKwAt_none_head _ (by decide) (by decide)
  · rw [hm] at htm
    rcases suffix_append_cases htm with htp | ⟨t1, ht1ne, ht1, rfl⟩
    · rcases hpp with rfl | ⟨ps, hpsne, hpsd, rfl⟩
      · rw [List.suffix_nil] at htp
        exact absurd htp htne
      · obtain ⟨c0, cs, rfl⟩ := List.exists_cons_of_ne_nil htne
        have hc0 : c0 ∈ ('(' :: ps ++ [')'] : List Char) := by
          obtain ⟨s, hsx⟩ := htp
          rw [← hsx]
          simp
        simp only [List.cons_append, List.mem_cons, List.mem_append,
          List.mem_singleton, List.not_mem_nil, or_false] at hc0
        rcases hc0 with rfl | hc0 | rfl
        · exact artKwAt_none_head _ (by decide) (by decide)
        · exact artKwAt_none_head _
            (ciEq_false_of_lower_digit (by decide) (hpsd _ hc0))
            (ciEq_false_of_lower_digit (by decide) (hpsd _ hc0))
        · exact artKwAt_none_head _ (by decide) (by decide)
    · rcases suffix_append_cases ht1 with htlp | ⟨t2, ht2ne, ht2, rfl⟩
      · rcases hlp with rfl | ⟨c2, rfl, hca⟩
        · rw [List.suffix_nil] at htlp
          exact absurd htlp ht1ne
        · have ht1e : t1 = [c2] := by
            obtain ⟨s, hsx⟩ := htlp
            cases s with
            | nil => simpa using hsx
            | cons a s' =>
              rw [List.cons_append, List.cons.injEq] at hsx
              exact absurd (List.append_eq_nil.mp hsx.2).2 ht1ne
          subst ht1e
          rw [List.singleton_append]
          apply artKwAt_none_second
          intro c1 hc1
          rcases hpp with rfl | ⟨ps, hpsne, hpsd, rfl⟩
          · simp at hc1
          · rw [show ('(' :: ps ++ [')'] : List Char) = '(' :: (ps ++ [')'])
              from by simp] at hc1
            simp at hc1
            subst hc1
            exact ⟨by decide, by decide⟩
      · obtain ⟨c0, cs, rfl⟩ := List.exists_cons_of_ne_nil ht2ne
        have hc0 : c0 ∈ ds := by
          obtain ⟨s, hsx⟩ := ht2
          rw [← hsx]
          simp
        rw [List.cons_append, List.cons_append]
        exact artKwAt_none_head _
          (ciEq_false_of_lower_digit (by decide) (hdig _ hc0))
          (ciEq_false_of_lower_digit (by decide) (hdig _ hc0))

/-- The keyword substitution fixes `Art ` followed by a previous match. -/
theorem artKwSub_art {m : List Char} (hs : ArtShape m) :
    artKwSub (String.data "Art " ++ m) = String.data "Art " ++ m := by
  unfold artKwSub
  rw [show String.data "Art " ++ m = 'A' :: 'r' :: 't' :: ' ' :: m from rfl]
  rw [show ('A' :: 'r' :: 't' :: ' ' :: m : List Char).length = (m.length + 3) + 1
    from by simp only [List.length_cons]]
  rw [artKwSubF_succ]
  dsimp only
  rw [artKwAt_art]
  dsimp only
  rw [artKwSubF_id (m.length + 3) (' ' :: m) (artShape_suffix_none hs)]
  rfl

/-- Article matches are printable ASCII, so stripping fixes the article
output. -/
theorem stripWS_art {m : List Char} (hs : ArtShape m) :
    stripWS (String.data "Art " ++ m) = String.data "Art " ++ m := by
  have hchars : ∀ c ∈ m, 33 ≤ c.toNat ∧ c.toNat ≤ 126 := by
    obtain ⟨ds, lp, pp, hm, hne, hdig, hlp, hpp⟩ := hs
    intro c hc
    rw [hm] at hc
    simp only [List.mem_append] at hc
    rcases hc with (hc | hc) | hc
    · have := digit_bounds (hdig c hc)
      omega
    · rcases hlp with rfl | ⟨c2, rfl, hca⟩
      · simp at hc
      · simp at hc
        subst hc
        exact alpha_printable hca
    · rcases hpp with rfl | ⟨ps, hpsne, hpsd, rfl⟩
      · simp at hc
      · simp only [List.cons_append, List.mem_cons, List.mem_append,
          List.mem_singleton, List.not_mem_nil, or_false] at hc
        rcases hc with rfl | hc | rfl
        · decide
        · have := digit_bounds (hpsd c hc)
          omega
        · decide
  have hmne : m ≠ [] := by
    obtain ⟨ds, lp, pp, hm, hne, hdig, hlp, hpp⟩ := hs
    rw [hm]
    obtain ⟨d0, ds', rfl⟩ := List.exists_cons_of_ne_nil hne
    simp
  apply stripWS_id_of_edge
  · intro c hc
    rw [show String.data "Art " ++ m = 'A' :: ('r' :: 't' :: ' ' :: m) from rfl] at hc
    simp at hc
    subst hc
    decide
  · intro d hd
    rw [List.reverse_append] at hd
    have hrne : m.reverse ≠ [] := by simpa using hmne
    obtain ⟨c0, cs, hrev⟩ := List.exists_cons_of_ne_nil hrne
    rw [hrev] at hd
    simp at hd
    subst hd
    have hc0m : d ∈ m := by
      have h1 : d ∈ m.reverse := by rw [hrev]; simp
      simpa using h1
    have hb := hchars d hc0m
    exact pyWS_false_of_printable hb.1 hb.2

/-- The article branch of the dispatcher. -/
theorem normEntL_article (u : List Char) :
    normEntL Tag.article u = normArticleL (stripWS u) := rfl

/-- Renormalizing the output of the article normalizer (as the dispatcher
does, with an intervening strip) returns it unchanged. -/
theorem normArticleL_idem (w : List Char) :
    normArticleL (stripWS (normArticleL w)) = normArticleL w := by
  cases hsearch : artNumSearch (artKwSub w) with
  | none =>
    have hout : normArticleL w = String.data "Art" := by
      unfold normArticleL
      dsimp only
      rw [hsearch]
    rw [hout]
    decide
  | some m =>
    have hshape : ArtShape m := artNumSearch_shape hsearch
    have hout : normArticleL w = String.data "Art " ++ m := by
      unfold normArticleL
      dsimp only
      rw [hsearch]
    rw [hout, stripWS_art hshape]
    unfold normArticleL
    dsimp only
    rw [artKwSub_art hshape, artNumSearch_art hshape]

/-- C5 counterexample: entity normalization is not idempotent for every tag.
A second application changes the result for the legal reference `EURATOM`
(the blind substitution re-extends the suffix each time), for the EUR amount
`1EUREUR` (the EUR token keeps moving in front of the digits), and for the
date `2025. gada 18. marts` (the first pass leaves a double space that the
second pass collapses). -/
theorem C5_idempotence_counterexample :
    normalize_entity Tag.legal_ref (normalize_entity Tag.legal_ref "EURATOM") ≠
      normalize_entity Tag.legal_ref "EURATOM" ∧
    normalize_entity Tag.eur_amount (normalize_entity Tag.eur_amount "1EUREUR") ≠
      normalize_entity Tag.eur_amount "1EUREUR" ∧
    normalize_entity Tag.date (normalize_entity Tag.date "2025. gada 18. marts") ≠
      normalize_entity Tag.date "2025. gada 18. marts" := by
  exact ⟨by decide, by decide, by decide⟩

/-- C5 (amended): entity normalization in `final.py` is idempotent for the
`number`, `percent`, `article` and `range` tags — for the number and percent
branches because a successfully parsed value prints to a string that strips,
cleans and parses back to the same canonical float, and a failed parse
returns the transformed text, which transforms to itself and fails again;
for `article` because the second pass re-substitutes `Art` to `Art` and
re-finds the identical number token; for `range` because stripping is
idempotent.  It is not idempotent for the `date`, `eur_amount` and
`legal_ref` tags. -/
theorem C5_idempotence_amended :
    ∀ v : String,
      normalize_entity Tag.number (normalize_entity Tag.number v) =
        normalize_entity Tag.number v ∧
      normalize_entity Tag.percent (normalize_entity Tag.percent v) =
        normalize_entity Tag.percent v ∧
      normalize_entity Tag.article (normalize_entity Tag.article v) =
        normalize_entity Tag.article v ∧
      normalize_entity Tag.range (normalize_entity Tag.range v) =
        normalize_entity Tag.range v := by
  intro v
  refine ⟨?_, ?_, ?_, ?_⟩
  · unfold normalize_entity
    dsimp only
    simp only [normEntL_number]
    exact congrArg String.mk (normNumL_strip_idem (stripWS v.data) (stripWS_idem v.data))
  · unfold normalize_entity
    dsimp only
    simp only [normEntL_percent]
    exact congrArg String.mk (normNumL_strip_idem (stripWS v.data) (stripWS_idem v.data))
  · unfold normalize_entity
    dsimp only
    simp only [normEntL_article]
    exact congrArg String.mk (normArticleL_idem (stripWS v.data))
  · unfold normalize_entity
    dsimp only
    simp only [normEntL_range]
    rw [stripWS_idem, stripWS_idem]

end DocCmp
